import Mathlib

/-!
# Verification of the URL-normalization engine of `untrackingParameters.py`

This file is a shallow embedding, in Lean 4, of the URL-normalization core of
the clipboard URL cleaner (`SilentURLCleaner`): the validator `is_url`, the
platform classifier `is_supported_platform`, the parameter filter `clean_url`,
the domain rewriter `convert_twitter_to_fxtwitter` and the composed pipeline
(the URL-processing part of `process_clipboard`).

Python strings are modelled as `List Char` (`Str`).  The pieces of the Python
standard library the engine calls — `re.match` for the two fixed patterns,
`urllib.parse.urlparse` / `parse_qs` / `urlencode` / `urlunparse`,
`str.strip` / `str.lower` / `str.replace` — are embedded from their CPython
sources (CPython 3.11 `Lib/urllib/parse.py`), including percent-encoding and
-decoding down to the UTF-8 byte level.  `urlparse`'s `ValueError` on a
mismatched IPv6 bracket (the parse-failure mode the engine's `try/except`
blocks absorb) is modelled by `Except`.

Deliberate simplifications, none observable by the theorems below:
`str.lower` is embedded for ASCII letters only; `_checknetloc`'s extra
`ValueError` for non-ASCII NFKC-unstable netlocs and `_check_bracketed_host`'s
validation of well-bracketed hosts are not modelled (the modelled failure is
the mismatched-bracket `ValueError`); `re.IGNORECASE` is embedded as ASCII
case-insensitivity.
-/

namespace URLClean

/-- Python `str`, modelled as a list of unicode scalars. -/
abbrev Str := List Char

/-! ## Character classes -/

/-- `[a-zA-Z0-9\-\.]`, the host character class of the validator's regex. -/
def hostChar (c : Char) : Bool := c.isAlphanum || c == '-' || c == '.'

/-- Characters stripped by Python `str.strip()` (the unicode whitespace set
used by `str.isspace`). -/
def pyIsSpace (c : Char) : Bool :=
  let n := c.toNat
  (0x9 ≤ n && n ≤ 0xd) || n == 0x20 || (0x1c ≤ n && n ≤ 0x1f) ||
  n == 0x85 || n == 0xa0 || n == 0x1680 || (0x2000 ≤ n && n ≤ 0x200a) ||
  n == 0x2028 || n == 0x2029 || n == 0x202f || n == 0x205f || n == 0x3000

/-- `_WHATWG_C0_CONTROL_OR_SPACE`: codepoints `0x00`–`0x20`, lstripped by
`urlsplit`. -/
def c0OrSpace (c : Char) : Bool := c.toNat ≤ 0x20

/-- ASCII lower-casing of one character (CPython's `str.lower`, restricted to
ASCII). -/
def lowerChar (c : Char) : Char := c.toLower

/-- `str.lower`, ASCII fragment. -/
def pyLower (s : Str) : Str := s.map lowerChar

/-- Python `str.strip()`: drop leading and trailing whitespace. -/
def pyStrip (s : Str) : Str :=
  ((s.dropWhile pyIsSpace).reverse.dropWhile pyIsSpace).reverse

/-- Python `str.lstrip(chars)` for the C0-or-space set. -/
def lstripC0 (s : Str) : Str := s.dropWhile c0OrSpace

/-- `scheme_chars` of `urllib.parse`. -/
def schemeChar (c : Char) : Bool := c.isAlphanum || c == '+' || c == '-' || c == '.'

/-! ## UTF-8 (CPython `str.encode('utf-8')` / `bytes.decode('utf-8', 'replace')`) -/

/-- UTF-8 encoding of one unicode scalar, as a list of byte values. -/
def utf8Bytes (c : Char) : List Nat :=
  let n := c.toNat
  if n < 0x80 then [n]
  else if n < 0x800 then [0xc0 + n / 0x40, 0x80 + n % 0x40]
  else if n < 0x10000 then
    [0xe0 + n / 0x1000, 0x80 + n / 0x40 % 0x40, 0x80 + n % 0x40]
  else
    [0xf0 + n / 0x40000, 0x80 + n / 0x1000 % 0x40, 0x80 + n / 0x40 % 0x40,
     0x80 + n % 0x40]

/-- The replacement character `U+FFFD` produced by `errors='replace'`. -/
def replChar : Char := Char.ofNat 0xfffd

/-- A UTF-8 continuation byte. -/
def isCont (b : Nat) : Bool := 0x80 ≤ b && b ≤ 0xbf

/-- Valid ranges of the first continuation byte after a 3-byte leader. -/
def cont3ok (b b1 : Nat) : Bool :=
  if b == 0xe0 then 0xa0 ≤ b1 && b1 ≤ 0xbf
  else if b == 0xed then 0x80 ≤ b1 && b1 ≤ 0x9f
  else isCont b1

/-- Valid ranges of the first continuation byte after a 4-byte leader. -/
def cont4ok (b b1 : Nat) : Bool :=
  if b == 0xf0 then 0x90 ≤ b1 && b1 ≤ 0xbf
  else if b == 0xf4 then 0x80 ≤ b1 && b1 ≤ 0x8f
  else isCont b1

/-- UTF-8 decoding with `errors='replace'` (maximal-subpart substitution of
`U+FFFD`, as CPython's codec does). -/
def utf8Decode : List Nat → Str
  | [] => []
  | b :: bs =>
    if b < 0x80 then Char.ofNat b :: utf8Decode bs
    else if 0xc2 ≤ b && b ≤ 0xdf then
      match bs with
      | b1 :: bs1 =>
        if isCont b1 then
          Char.ofNat ((b - 0xc0) * 0x40 + (b1 - 0x80)) :: utf8Decode bs1
        else replChar :: utf8Decode (b1 :: bs1)
      | [] => [replChar]
    else if 0xe0 ≤ b && b ≤ 0xef then
      match bs with
      | b1 :: bs1 =>
        if cont3ok b b1 then
          match bs1 with
          | b2 :: bs2 =>
            if isCont b2 then
              Char.ofNat ((b - 0xe0) * 0x1000 + (b1 - 0x80) * 0x40 + (b2 - 0x80))
                :: utf8Decode bs2
            else replChar :: utf8Decode (b2 :: bs2)
          | [] => [replChar]
        else replChar :: utf8Decode (b1 :: bs1)
      | [] => [replChar]
    else if 0xf0 ≤ b && b ≤ 0xf4 then
      match bs with
      | b1 :: bs1 =>
        if cont4ok b b1 then
          match bs1 with
          | b2 :: bs2 =>
            if isCont b2 then
              match bs2 with
              | b3 :: bs3 =>
                if isCont b3 then
                  Char.ofNat ((b - 0xf0) * 0x40000 + (b1 - 0x80) * 0x1000 +
                    (b2 - 0x80) * 0x40 + (b3 - 0x80)) :: utf8Decode bs3
                else replChar :: utf8Decode (b3 :: bs3)
              | [] => [replChar]
            else replChar :: utf8Decode (b2 :: bs2)
          | [] => [replChar]
        else replChar :: utf8Decode (b1 :: bs1)
      | [] => [replChar]
    else replChar :: utf8Decode bs

/-- Decoding inverts encoding, one scalar at a time, whatever bytes follow. -/
theorem utf8Decode_encode (c : Char) (bs : List Nat) :
    utf8Decode (utf8Bytes c ++ bs) = c :: utf8Decode bs := by
  have hv : c.toNat < 0xd800 ∨ (0xdfff < c.toNat ∧ c.toNat < 0x110000) := c.valid
  have hofn : Char.ofNat c.toNat = c := Char.ofNat_toNat c
  by_cases h1 : c.toNat < 0x80
  · simp only [utf8Bytes, h1, if_pos, List.cons_append, List.nil_append]
    rw [utf8Decode.eq_def]
    simp only [h1, if_true, hofn]
  · by_cases h2 : c.toNat < 0x800
    · have hb : ¬ (0xc0 + c.toNat / 0x40 < 0x80) := by omega
      have hb2 : (0xc2 ≤ 0xc0 + c.toNat / 0x40 && 0xc0 + c.toNat / 0x40 ≤ 0xdf) = true := by
        simp only [Bool.and_eq_true, decide_eq_true_eq]; omega
      have hc : isCont (0x80 + c.toNat % 0x40) = true := by
        simp only [isCont, Bool.and_eq_true, decide_eq_true_eq]; omega
      have hval : (0xc0 + c.toNat / 0x40 - 0xc0) * 0x40 + (0x80 + c.toNat % 0x40 - 0x80)
          = c.toNat := by omega
      simp only [utf8Bytes, h1, h2, if_neg, if_pos, List.cons_append, List.nil_append]
      rw [utf8Decode.eq_def]
      simp only [List.cons_append, List.nil_append, hb, if_false, hb2, if_true, hc,
        hval, hofn]
    · by_cases h3 : c.toNat < 0x10000
      · have hb : ¬ (0xe0 + c.toNat / 0x1000 < 0x80) := by omega
        have hb2 : (0xc2 ≤ 0xe0 + c.toNat / 0x1000 && 0xe0 + c.toNat / 0x1000 ≤ 0xdf)
            = false := by
          simp only [Bool.and_eq_false_iff, decide_eq_false_iff_not]; omega
        have hb3 : (0xe0 ≤ 0xe0 + c.toNat / 0x1000 && 0xe0 + c.toNat / 0x1000 ≤ 0xef)
            = true := by
          simp only [Bool.and_eq_true, decide_eq_true_eq]; omega
        have hc1 : cont3ok (0xe0 + c.toNat / 0x1000) (0x80 + c.toNat / 0x40 % 0x40)
            = true := by
          simp only [cont3ok, isCont, beq_iff_eq]
          split_ifs with hE hD <;> simp only [Bool.and_eq_true, decide_eq_true_eq] <;>
            omega
        have hc2 : isCont (0x80 + c.toNat % 0x40) = true := by
          simp only [isCont, Bool.and_eq_true, decide_eq_true_eq]; omega
        have hval : (0xe0 + c.toNat / 0x1000 - 0xe0) * 0x1000 +
            (0x80 + c.toNat / 0x40 % 0x40 - 0x80) * 0x40 + (0x80 + c.toNat % 0x40 - 0x80)
            = c.toNat := by omega
        simp only [utf8Bytes, h1, h2, h3, if_neg, if_pos, List.cons_append,
          List.nil_append]
        rw [utf8Decode.eq_def]
        simp only [List.cons_append, List.nil_append, hb, if_false, hb2, hb3, if_true,
          hc1, hc2, hval, hofn, Bool.false_eq_true]
      · have h4 : c.toNat < 0x110000 := by omega
        have hb : ¬ (0xf0 + c.toNat / 0x40000 < 0x80) := by omega
        have hb2 : (0xc2 ≤ 0xf0 + c.toNat / 0x40000 && 0xf0 + c.toNat / 0x40000 ≤ 0xdf)
            = false := by
          simp only [Bool.and_eq_false_iff, decide_eq_false_iff_not]; omega
        have hb3 : (0xe0 ≤ 0xf0 + c.toNat / 0x40000 && 0xf0 + c.toNat / 0x40000 ≤ 0xef)
            = false := by
          simp only [Bool.and_eq_false_iff, decide_eq_false_iff_not]; omega
        have hb4 : (0xf0 ≤ 0xf0 + c.toNat / 0x40000 && 0xf0 + c.toNat / 0x40000 ≤ 0xf4)
            = true := by
          simp only [Bool.and_eq_true, decide_eq_true_eq]; omega
        have hc1 : cont4ok (0xf0 + c.toNat / 0x40000) (0x80 + c.toNat / 0x1000 % 0x40)
            = true := by
          simp only [cont4ok, isCont, beq_iff_eq]
          split_ifs with hE hD <;> simp only [Bool.and_eq_true, decide_eq_true_eq] <;>
            omega
        have hc2 : isCont (0x80 + c.toNat / 0x40 % 0x40) = true := by
          simp only [isCont, Bool.and_eq_true, decide_eq_true_eq]; omega
        have hc3 : isCont (0x80 + c.toNat % 0x40) = true := by
          simp only [isCont, Bool.and_eq_true, decide_eq_true_eq]; omega
        have hval : (0xf0 + c.toNat / 0x40000 - 0xf0) * 0x40000 +
            (0x80 + c.toNat / 0x1000 % 0x40 - 0x80) * 0x1000 +
            (0x80 + c.toNat / 0x40 % 0x40 - 0x80) * 0x40 + (0x80 + c.toNat % 0x40 - 0x80)
            = c.toNat := by omega
        simp only [utf8Bytes, h1, h2, h3, if_neg, List.cons_append, List.nil_append]
        rw [utf8Decode.eq_def]
        simp only [List.cons_append, List.nil_append, hb, if_false, hb2, hb3, hb4,
          if_true, hc1, hc2, hc3, hval, hofn, Bool.false_eq_true]

/-! ## Percent-encoding (`urllib.parse.quote_plus` / `unquote` with `'+'`
pre-replacement, as `parse_qsl` and `urlencode` use them) -/

/-- `_ALWAYS_SAFE`: ASCII letters, digits and `_.-~` are emitted verbatim by
`quote`. -/
def alwaysSafe (c : Char) : Bool :=
  c.isAlphanum || c == '_' || c == '.' || c == '-' || c == '~'

/-- The upper-case hex digit CPython's `quote` emits for a nibble. -/
def hexUpper (n : Nat) : Char :=
  if n < 10 then Char.ofNat (48 + n) else Char.ofNat (55 + n)

/-- `%XX` escape of one byte. -/
def pctEncByte (b : Nat) : Str := ['%', hexUpper (b / 16), hexUpper (b % 16)]

/-- `quote_plus(·, safe='')` on one character: safe characters kept, space
becomes `+`, anything else is the `%XX` escapes of its UTF-8 bytes. -/
def quotePlusChar (c : Char) : Str :=
  if alwaysSafe c then [c]
  else if c == ' ' then ['+']
  else (utf8Bytes c).flatMap pctEncByte

/-- `quote_plus(s, safe='')` (the `quote_via` used by `urlencode`). -/
def quotePlus (s : Str) : Str := s.flatMap quotePlusChar

/-- A hex digit as accepted by `unquote`'s `_hextobyte` table. -/
def isHexDigit (c : Char) : Bool :=
  ('0' ≤ c && c ≤ '9') || ('a' ≤ c && c ≤ 'f') || ('A' ≤ c && c ≤ 'F')

/-- Numeric value of a hex digit. -/
def hexVal (c : Char) : Nat :=
  if c ≤ '9' then c.toNat - 48
  else if c ≤ 'F' then c.toNat - 55
  else c.toNat - 87

/-- Collect the maximal leading run of valid `%XX` escapes as byte values
(the byte run `unquote_to_bytes` accumulates before decoding). -/
def takeBytes : Str → List Nat × Str
  | c :: h :: l :: rest =>
    if c = '%' && isHexDigit h && isHexDigit l then
      let p := takeBytes rest
      ((hexVal h * 16 + hexVal l) :: p.1, p.2)
    else ([], c :: h :: l :: rest)
  | s => ([], s)

theorem takeBytes_length_le (s : Str) : (takeBytes s).2.length ≤ s.length := by
  match s with
  | c :: h :: l :: rest =>
    rw [takeBytes.eq_def]
    by_cases hx : (c = '%' && isHexDigit h && isHexDigit l) = true
    · simp only [hx, if_true]
      have := takeBytes_length_le rest
      simp only [List.length_cons]; omega
    · simp only [hx, Bool.false_eq_true, if_false]
      simp
  | [] => simp [takeBytes]
  | [c] => simp [takeBytes]
  | [c, h] => simp [takeBytes]

/-- The scanning loop of `unquote`: `acc` is the byte run of consecutive
valid `%XX` escapes collected so far; at the end of a maximal run the bytes
are decoded as UTF-8 in one piece (`unquote_to_bytes` + `errors='replace'`). -/
def unquoteAcc : List Nat → Str → Str
  | acc, c :: h :: l :: rest =>
    if c = '%' && isHexDigit h && isHexDigit l then
      unquoteAcc (acc ++ [hexVal h * 16 + hexVal l]) rest
    else utf8Decode acc ++ c :: unquoteAcc [] (h :: l :: rest)
  | acc, [c] => utf8Decode acc ++ [c]
  | acc, [c, d] => utf8Decode acc ++ [c, d]
  | acc, [] => utf8Decode acc

/-- `unquote(s, encoding='utf-8', errors='replace')`: maximal runs of valid
`%XX` escapes are decoded as UTF-8 byte strings, other characters pass
through, an invalid escape leaves the `%` literal. -/
def unquote (s : Str) : Str := unquoteAcc [] s

/-- The accumulator loop against the explicit byte-run collector: pending
bytes plus the maximal run are decoded in one piece. -/
theorem unquoteAcc_eq (t : Str) (acc : List Nat) :
    unquoteAcc acc t =
      utf8Decode (acc ++ (takeBytes t).1) ++ unquoteAcc [] (takeBytes t).2 := by
  match t with
  | c :: h :: l :: rest =>
    rw [unquoteAcc.eq_def, takeBytes.eq_def]
    by_cases hx : (c = '%' && isHexDigit h && isHexDigit l) = true
    · simp only [hx, if_true]
      rw [unquoteAcc_eq rest]
      simp [List.append_assoc]
    · simp only [hx, Bool.false_eq_true, if_false]
      rw [List.append_nil]
      congr 1
      conv_rhs => rw [unquoteAcc.eq_def]
      simp only [hx, Bool.false_eq_true, if_false]
      rfl
  | [] => simp [takeBytes, unquoteAcc, utf8Decode]
  | [c] => simp [takeBytes, unquoteAcc, utf8Decode]
  | [c, d] => simp [takeBytes, unquoteAcc, utf8Decode]

/-- `parse_qsl`'s `'+' → ' '` replacement on one character. -/
def plusRepl (c : Char) : Char := if c == '+' then ' ' else c

/-- `parse_qsl`'s `'+' → ' '` replacement followed by `unquote`
(`unquote_plus`). -/
def unquotePlus (s : Str) : Str := unquote (s.map plusRepl)

/-! ### Round trip: `unquote_plus ∘ quote_plus = id` -/

theorem isHexDigit_hexUpper (n : Nat) (h : n < 16) : isHexDigit (hexUpper n) = true := by
  interval_cases n <;> decide

theorem hexVal_hexUpper (n : Nat) (h : n < 16) : hexVal (hexUpper n) = n := by
  interval_cases n <;> decide

theorem utf8Bytes_lt (c : Char) : ∀ b ∈ utf8Bytes c, b < 256 := by
  intro b hb
  have hv : c.toNat < 0xd800 ∨ (0xdfff < c.toNat ∧ c.toNat < 0x110000) := c.valid
  simp only [utf8Bytes] at hb
  split_ifs at hb <;> simp only [List.mem_cons, List.mem_singleton,
    List.not_mem_nil, or_false] at hb <;> rcases hb with h | h | h | h <;> omega

theorem utf8Bytes_ne_nil (c : Char) : utf8Bytes c ≠ [] := by
  simp only [utf8Bytes]
  split_ifs <;> simp

theorem takeBytes_pctEncByte (b : Nat) (hb : b < 256) (t : Str) :
    takeBytes (pctEncByte b ++ t) = (b :: (takeBytes t).1, (takeBytes t).2) := by
  have h1 : isHexDigit (hexUpper (b / 16)) = true := isHexDigit_hexUpper _ (by omega)
  have h2 : isHexDigit (hexUpper (b % 16)) = true := isHexDigit_hexUpper _ (by omega)
  have v1 : hexVal (hexUpper (b / 16)) = b / 16 := hexVal_hexUpper _ (by omega)
  have v2 : hexVal (hexUpper (b % 16)) = b % 16 := hexVal_hexUpper _ (by omega)
  have hb2 : b / 16 * 16 + b % 16 = b := by omega
  simp only [pctEncByte, List.cons_append, List.nil_append]
  rw [takeBytes.eq_def]
  simp only [v1, v2, hb2]
  rw [if_pos (by simp [h1, h2])]

theorem takeBytes_flat (bs : List Nat) (hbs : ∀ b ∈ bs, b < 256) (t : Str) :
    takeBytes (bs.flatMap pctEncByte ++ t) =
      (bs ++ (takeBytes t).1, (takeBytes t).2) := by
  induction bs with
  | nil => simp
  | cons b bs ih =>
    have hb : b < 256 := hbs b (List.mem_cons_self b bs)
    have hbs2 : ∀ x ∈ bs, x < 256 := fun x hx => hbs x (List.mem_cons_of_mem b hx)
    simp only [List.flatMap_cons, List.append_assoc]
    rw [takeBytes_pctEncByte b hb, ih hbs2]
    simp

theorem unquote_eq_takeBytes (t : Str) :
    unquote t = utf8Decode (takeBytes t).1 ++ unquote (takeBytes t).2 := by
  rw [unquote, unquote, unquoteAcc_eq t, List.nil_append]

theorem unquote_nil : unquote ([] : Str) = [] := rfl

theorem unquote_cons_ne (c : Char) (hc : ¬ c = '%') (t : Str) :
    unquote (c :: t) = c :: unquote t := by
  have hd : (decide (c = '%')) = false := decide_eq_false hc
  match t with
  | h :: l :: rest =>
    rw [unquote, unquote, unquoteAcc.eq_def]
    simp only [hd, Bool.false_and, Bool.false_eq_true, if_false]
    rfl
  | [] => rfl
  | [d] => rfl

theorem plusRepl_hexUpper (n : Nat) (h : n < 16) : plusRepl (hexUpper n) = hexUpper n := by
  interval_cases n <;> decide

theorem map_plusRepl_flat (bs : List Nat) (hbs : ∀ b ∈ bs, b < 256) :
    (bs.flatMap pctEncByte).map plusRepl = bs.flatMap pctEncByte := by
  induction bs with
  | nil => simp
  | cons b bs ih =>
    have hb : b < 256 := hbs b (List.mem_cons_self b bs)
    have hbs2 : ∀ x ∈ bs, x < 256 := fun x hx => hbs x (List.mem_cons_of_mem b hx)
    simp only [List.flatMap_cons, List.map_append, ih hbs2]
    congr 1
    simp only [pctEncByte, List.map_cons, List.map_nil]
    rw [plusRepl_hexUpper _ (by omega), plusRepl_hexUpper _ (by omega)]
    rfl

/-- `unquote_plus` inverts `quote_plus` on every string. -/
theorem unquotePlus_quotePlus (s : Str) : unquotePlus (quotePlus s) = s := by
  suffices h : ∀ s : Str, unquote ((quotePlus s).map plusRepl) = s from h s
  intro s
  induction s with
  | nil => simp [quotePlus, unquote_nil]
  | cons c s ih =>
    have hstream : (quotePlus (c :: s)).map plusRepl =
        (quotePlusChar c).map plusRepl ++ (quotePlus s).map plusRepl := by
      simp [quotePlus, List.flatMap_cons]
    rw [hstream]
    by_cases hsafe : alwaysSafe c = true
    · have hplus : ¬ c = '+' := by
        intro h; rw [h] at hsafe; exact absurd hsafe (by decide)
      have hmap : (quotePlusChar c).map plusRepl = [c] := by
        simp [quotePlusChar, hsafe, plusRepl, hplus]
      have hne : ¬ c = '%' := by
        intro h; rw [h] at hsafe; exact absurd hsafe (by decide)
      rw [hmap, List.cons_append, List.nil_append, unquote_cons_ne c hne, ih]
    · have hcs : (alwaysSafe c) = false := by
        exact Bool.not_eq_true _ |>.mp hsafe
      by_cases hsp : c = ' '
      · have hmap : (quotePlusChar c).map plusRepl = [' '] := by
          rw [hsp]; decide
        rw [hmap, hsp, List.cons_append, List.nil_append,
          unquote_cons_ne ' ' (by decide) _, ih]
      · have hcs2 : (c == ' ') = false := by
          exact beq_eq_false_iff_ne.mpr hsp
        have hmap : (quotePlusChar c).map plusRepl =
            (utf8Bytes c).flatMap pctEncByte := by
          simp only [quotePlusChar, hcs, Bool.false_eq_true, if_false, hcs2]
          exact map_plusRepl_flat _ (utf8Bytes_lt c)
        rw [hmap]
        obtain ⟨b0, bsT, hby⟩ : ∃ b0 bsT, utf8Bytes c = b0 :: bsT := by
          match heq : utf8Bytes c with
          | [] => exact absurd heq (utf8Bytes_ne_nil c)
          | b0 :: bsT => exact ⟨b0, bsT, rfl⟩
        have hb0 : b0 < 256 := utf8Bytes_lt c b0 (by rw [hby]; exact List.mem_cons_self _ _)
        have hbsT : ∀ b ∈ bsT, b < 256 := fun b hb =>
          utf8Bytes_lt c b (by rw [hby]; exact List.mem_cons_of_mem _ hb)
        rw [hby, List.flatMap_cons, List.append_assoc]
        rw [unquote_eq_takeBytes, takeBytes_pctEncByte b0 hb0, takeBytes_flat bsT hbsT]
        have hcollect : (b0 :: (bsT ++ (takeBytes ((quotePlus s).map plusRepl)).1)) =
            utf8Bytes c ++ (takeBytes ((quotePlus s).map plusRepl)).1 := by
          rw [hby]; simp
        rw [hcollect, utf8Decode_encode, List.cons_append]
        rw [← unquote_eq_takeBytes, ih]

/-! ## `urllib.parse.urlsplit` / `urlparse` (CPython 3.11) -/

/-- The six components of `urlparse`'s `ParseResult`. -/
structure ParseResult where
  scheme : Str
  netloc : Str
  path : Str
  params : Str
  query : Str
  fragment : Str
deriving DecidableEq, Repr

/-- A byte `urlsplit` removes everywhere (`_UNSAFE_URL_BYTES_TO_REMOVE`). -/
def unsafeChar (c : Char) : Bool := c == '\t' || c == '\r' || c == '\n'

/-- Removal of `_UNSAFE_URL_BYTES_TO_REMOVE` (`\t`, `\r`, `\n`) everywhere in
the URL. -/
def removeUnsafe (s : Str) : Str := s.filter (fun c => !unsafeChar c)

/-- Split a string at the first occurrence of `ch` (Python `split(ch, 1)`
when it succeeds, `find`/slicing otherwise); `none` when `ch` is absent. -/
def splitFirst (ch : Char) : Str → Option (Str × Str)
  | [] => none
  | c :: s =>
    if c = ch then some ([], s)
    else (splitFirst ch s).map (fun p => (c :: p.1, p.2))

/-- `url.split(ch, 1)` with the no-occurrence default `(url, '')`. -/
def cutAt (ch : Char) (u : Str) : Str × Str :=
  match splitFirst ch u with
  | some p => p
  | none => (u, [])

/-- The scheme-splitting step of `urlsplit`: an initial run of
`scheme_chars` beginning with an ASCII letter, up to the first `:`. -/
def splitScheme (u : Str) : Str × Str :=
  match splitFirst ':' u with
  | none => ([], u)
  | some (pre, post) =>
    match pre with
    | [] => ([], u)
    | c0 :: _ =>
      if c0.isAlpha && pre.all schemeChar then (pyLower pre, post) else ([], u)

/-- `_splitnetloc(url, 2)`: the netloc ends at the first `/`, `?` or `#`. -/
def netlocBreak (c : Char) : Bool := c == '/' || c == '?' || c == '#'

/-- The `ValueError("Invalid IPv6 URL")` condition: a `[` without `]` or a
`]` without `[` in the netloc. -/
def bracketMismatch (nl : Str) : Bool :=
  (nl.contains '[' && !(nl.contains ']')) || (nl.contains ']' && !(nl.contains '['))

/-- `urlsplit(url)` (with `allow_fragments=True` and no default scheme),
returning `(scheme, netloc, path, query, fragment)`; `.error ()` models the
`ValueError` raised on a mismatched IPv6 bracket. -/
def urlsplitE (url : Str) : Except Unit (Str × Str × Str × Str × Str) :=
  let u0 := removeUnsafe (lstripC0 url)
  let sp := splitScheme u0
  let scheme := sp.1
  let u1 := sp.2
  if u1.take 2 = ['/', '/'] then
    let netloc := (u1.drop 2).takeWhile (fun c => !netlocBreak c)
    let u2 := (u1.drop 2).dropWhile (fun c => !netlocBreak c)
    if bracketMismatch netloc then .error ()
    else
      let f := cutAt '#' u2
      let q := cutAt '?' f.1
      .ok (scheme, netloc, q.1, q.2, f.2)
  else
    let f := cutAt '#' u1
    let q := cutAt '?' f.1
    .ok (scheme, [], q.1, q.2, f.2)

/-- `uses_params` of `urllib.parse`. -/
def usesParams : List Str :=
  ["", "ftp", "hdl", "prospero", "http", "imap", "https", "shttp", "rtsp",
   "rtsps", "rtspu", "sip", "sips", "mms", "sftp", "tel"].map String.toList

/-- `_splitparams(url)`: split params off the last path segment at its first
`;`.  (The branch with no `/` and no `;` is unreachable from `urlparse`,
which only calls this when `';' in url`.) -/
def splitParams (url : Str) : Str × Str :=
  if url.contains '/' then
    let B := (url.reverse.takeWhile (fun c => !(c == '/'))).reverse
    let A := (url.reverse.dropWhile (fun c => !(c == '/'))).reverse
    match splitFirst ';' B with
    | none => (url, [])
    | some (b1, b2) => (A ++ b1, b2)
  else
    match splitFirst ';' url with
    | none => (url, [])
    | some (p1, p2) => (p1, p2)

/-- The params step of `urlparse`: split only for `uses_params` schemes with
a `;` in the path. -/
def paramsSplit (scheme pth : Str) : Str × Str :=
  if usesParams.contains scheme && pth.contains ';' then splitParams pth
  else (pth, [])

/-- What `urlunparse` joins back: `"%s;%s" % (url, params)` when params is
non-empty. -/
def joinParams (pth params : Str) : Str :=
  if params ≠ [] then pth ++ ';' :: params else pth

/-- `urlparse(url)`: `urlsplit` plus the params split. -/
def urlparseE (url : Str) : Except Unit ParseResult :=
  match urlsplitE url with
  | .error e => .error e
  | .ok (scheme, netloc, path, query, fragment) =>
    let pr := paramsSplit scheme path
    .ok ⟨scheme, netloc, pr.1, pr.2, query, fragment⟩

/-- `uses_netloc` of `urllib.parse`. -/
def usesNetloc : List Str :=
  ["", "ftp", "http", "gopher", "nntp", "telnet", "imap", "wais", "file",
   "mms", "https", "shttp", "snews", "prospero", "rtsp", "rtsps", "rtspu",
   "rsync", "svn", "svn+ssh", "sftp", "nfs", "git", "git+ssh", "ws",
   "wss"].map String.toList

/-- `urlunsplit((scheme, netloc, url, query, fragment))`. -/
def urlunsplit (scheme netloc path query fragment : Str) : Str :=
  let url := path
  let url :=
    if netloc ≠ [] ∨ (scheme ≠ [] ∧ usesNetloc.contains scheme ∧
        url.take 2 ≠ ['/', '/']) then
      let url := if url ≠ [] ∧ url.take 1 ≠ ['/'] then '/' :: url else url
      ['/', '/'] ++ netloc ++ url
    else url
  let url := if scheme ≠ [] then scheme ++ ':' :: url else url
  let url := if query ≠ [] then url ++ '?' :: query else url
  if fragment ≠ [] then url ++ '#' :: fragment else url

/-- `urlunparse`: re-join params into the path, then `urlunsplit`. -/
def urlunparse (p : ParseResult) : Str :=
  urlunsplit p.scheme p.netloc (joinParams p.path p.params) p.query p.fragment

/-! ## `parse_qs` / `urlencode` -/

/-- One field of a query string, as `parse_qsl` treats it (with the default
`keep_blank_values=False`, `strict_parsing=False`): empty fields, fields
without `=`, and fields with an empty value are skipped; name and value are
`'+'`-replaced and unquoted. -/
def parseField (f : Str) : Option (Str × Str) :=
  if f = [] then none
  else
    match splitFirst '=' f with
    | none => none
    | some (name, value) =>
      if value = [] then none
      else some (unquotePlus name, unquotePlus value)

/-- `parse_qsl(qs)` with the default arguments (separator `&`). -/
def parse_qsl (qs : Str) : List (Str × Str) :=
  if qs = [] then [] else (qs.splitOn '&').filterMap parseField

/-- The dict-building loop of `parse_qs`: values accumulate per name, names
keep first-appearance (insertion) order. -/
def addPair (acc : List (Str × List Str)) (kv : Str × Str) : List (Str × List Str) :=
  if acc.any (fun e => e.1 == kv.1) then
    acc.map (fun e => if e.1 == kv.1 then (e.1, e.2 ++ [kv.2]) else e)
  else acc ++ [(kv.1, [kv.2])]

/-- `parse_qs(qs)` as an insertion-ordered association list (Python dicts
preserve insertion order). -/
def parse_qs (qs : Str) : List (Str × List Str) :=
  (parse_qsl qs).foldl addPair []

/-- `'&'.join(fields)`. -/
def joinAmp (fields : List Str) : Str := List.intercalate ['&'] fields

/-- One `quote_plus(k)=quote_plus(v)` field of `urlencode`'s output. -/
def encPair (k v : Str) : Str := quotePlus k ++ '=' :: quotePlus v

/-- The field list `urlencode(query, doseq=True)` builds: one field per value,
in dict insertion order. -/
def encFields (query : List (Str × List Str)) : List Str :=
  query.flatMap (fun kv => kv.2.map (encPair kv.1))

/-- `urlencode(query, doseq=True)` over an insertion-ordered dict of string
lists. -/
def urlencode (query : List (Str × List Str)) : Str := joinAmp (encFields query)

/-! ## The engine itself (`SilentURLCleaner`) -/

/-- `self.tracking_params` (the entries are compared against lower-cased
query-parameter names). -/
def tracking_params : List Str :=
  ["fbclid", "fb_action_ids", "fb_action_types", "fb_ref", "fb_source",
   "fb_comment_id", "comment_tracking", "notif_id", "notif_t",
   "utm_source", "utm_medium", "utm_campaign", "utm_term", "utm_content",
   "utm_id", "utm_source_platform", "utm_creative_format",
   "utm_marketing_tactic", "gclid", "gclsrc", "dclid", "gbraid", "wbraid",
   "_ga", "_gl",
   "t", "s", "ref_src", "ref_url", "twclid", "twitter-impression-id",
   "feature", "kw", "si", "app", "persist_app", "noapp", "has_verified",
   "list", "index", "pp", "source_ve_path", "ab_channel",
   "tag", "ref", "ref_", "pf_rd_m", "pf_rd_s", "pf_rd_r", "pf_rd_t",
   "pf_rd_p", "pf_rd_i", "pd_rd_i", "pd_rd_r", "pd_rd_w", "pd_rd_wg",
   "linkCode", "camp", "creative", "creativeASIN", "ascsubtag",
   "msclkid", "cvid", "trk", "trkInfo", "li_fat_id", "lipi",
   "utm_name", "rdt_cid", "share_id", "context",
   "is_copy_url", "sender_device", "sender_web_id", "tt_from",
   "igshid", "igsh", "img_index", "amp_analytics",
   "mc_cid", "mc_eid", "yclid", "ncid", "_hsenc", "_hsmi"].map String.toList

/-- `self.supported_domains`. -/
def supported_domains : List Str :=
  ["facebook.com", "fb.com", "m.facebook.com",
   "twitter.com", "x.com", "mobile.twitter.com",
   "youtube.com", "youtu.be", "m.youtube.com",
   "instagram.com", "m.instagram.com",
   "linkedin.com", "m.linkedin.com",
   "reddit.com", "old.reddit.com",
   "tiktok.com", "vm.tiktok.com",
   "amazon.com", "smile.amazon.com",
   "pinterest.com", "pin.it"].map String.toList

/-- Python `needle in hay` (substring containment). -/
def isSubstr (needle hay : Str) : Bool :=
  hay.tails.any (fun t => needle.isPrefixOf t)

/-- `domain.replace('www.', '')`: remove every occurrence of `www.`,
scanning left to right. -/
def stripWWWAll : Str → Str
  | 'w' :: 'w' :: 'w' :: '.' :: rest => stripWWWAll rest
  | c :: rest => c :: stripWWWAll rest
  | [] => []

/-- The host normalization both `is_supported_platform` and
`convert_twitter_to_fxtwitter` perform: `netloc.lower().replace('www.', '')`. -/
def normDomain (netloc : Str) : Str := stripWWWAll (pyLower netloc)

/-- The dangerous-scheme pattern
`re.match(r'^(javascript|data|vbscript|file):', text, re.IGNORECASE)`. -/
def dangerousScheme (t : Str) : Bool :=
  ["javascript:", "data:", "vbscript:", "file:"].any
    (fun p => p.toList.isPrefixOf (pyLower t))

/-- The part of `^https?://[a-zA-Z0-9][a-zA-Z0-9\-\.]*[a-zA-Z0-9]/?.+$`
after the literal `https?://`: first character alphanumeric, then (after
backtracking over the `*`) some alphanumeric at least two characters before
the end, and no newline anywhere (`.` does not match `\n`, and the stripped
text has no trailing newline for `$` to hide). -/
def tailMatch (t : Str) : Bool :=
  match t with
  | [] => false
  | c0 :: rest =>
    c0.isAlphanum && (c0 :: rest).all (fun c => !(c == '\n')) &&
    ((rest.takeWhile hostChar).take (rest.length - 1)).any Char.isAlphanum

/-- The full-URL pattern `re.match(r'^https?://...', text, re.IGNORECASE)`. -/
def httpMatch (t : Str) : Bool :=
  if "https://".toList.isPrefixOf (pyLower t) then tailMatch (t.drop 8)
  else if "http://".toList.isPrefixOf (pyLower t) then tailMatch (t.drop 7)
  else false

/-- `SilentURLCleaner.is_url`: length bounds on the raw text, dangerous
schemes rejected, then the HTTP/HTTPS pattern on the stripped text. -/
def is_url (text : Str) : Bool :=
  if text.length > 2048 || text.length < 10 then false
  else
    let t := pyStrip text
    if dangerousScheme t then false
    else httpMatch t

/-- `SilentURLCleaner.is_supported_platform`: substring check of the
supported domains against the normalized host; parse failure yields `False`. -/
def is_supported_platform (url : Str) : Bool :=
  match urlparseE url with
  | .error _ => false
  | .ok p => supported_domains.any (fun d => isSubstr d (normDomain p.netloc))

/-- `SilentURLCleaner.clean_url`: drop query parameters whose lower-cased
(decoded) name is in `tracking_params`, re-encode the rest, rebuild the URL;
non-HTTP(S) schemes and parse failures return the input unchanged with an
empty removed list. -/
def clean_url (url : Str) : Str × List Str :=
  match urlparseE url with
  | .error _ => (url, [])
  | .ok p =>
    if p.scheme = "http".toList ∨ p.scheme = "https".toList then
      let qp := parse_qs p.query
      let cleaned := qp.filter (fun kv => !(tracking_params.contains (pyLower kv.1)))
      let removed := (qp.filter (fun kv => tracking_params.contains (pyLower kv.1))).map
        (fun kv => kv.1)
      (urlunparse ⟨p.scheme, p.netloc, p.path, p.params, urlencode cleaned,
        p.fragment⟩, removed)
    else (url, [])

/-- `SilentURLCleaner.convert_twitter_to_fxtwitter`: on an exact
Twitter/X/mobile host (after normalization) whose path contains `/status/`,
substitute the host `fxtwitter.com`; otherwise, and on parse failure, return
the input unchanged. -/
def convert_twitter_to_fxtwitter (url : Str) : Str × Bool :=
  match urlparseE url with
  | .error _ => (url, false)
  | .ok p =>
    let domain := normDomain p.netloc
    if (domain = "twitter.com".toList ∨ domain = "x.com".toList ∨
        domain = "mobile.twitter.com".toList) ∧ isSubstr "/status/".toList p.path then
      (urlunparse ⟨p.scheme, "fxtwitter.com".toList, p.path, p.params, p.query,
        p.fragment⟩, true)
    else (url, false)

/-- The pipeline's output on an accepted URL (spec §6 `ChangeSummary`). -/
structure ChangeSummary where
  finalURL : Str
  removedParams : List Str
  wasRewritten : Bool
deriving DecidableEq, Repr

/-- The URL-processing core of `SilentURLCleaner.process_clipboard` (the
spec's `normalize`): validate, classify, filter, rewrite; `none` models the
terminal `Rejected` state (no clipboard write). -/
def normalize (s : Str) : Option ChangeSummary :=
  if is_url s && is_supported_platform s then
    let cr := clean_url s
    let fc := convert_twitter_to_fxtwitter cr.1
    some ⟨fc.1, cr.2, fc.2⟩
  else none

/-! ## Round trip: `parse_qs ∘ urlencode = id` on dict-shaped data -/

theorem mem_quotePlus {s : Str} {x : Char} (hx : x ∈ quotePlus s) :
    alwaysSafe x = true ∨ x = '+' ∨ x = '%' ∨ isHexDigit x = true := by
  simp only [quotePlus, List.mem_flatMap] at hx
  obtain ⟨c, _, hx⟩ := hx
  simp only [quotePlusChar] at hx
  split_ifs at hx with h1 h2
  · simp only [List.mem_singleton] at hx
    exact Or.inl (hx ▸ h1)
  · simp only [List.mem_singleton] at hx
    exact Or.inr (Or.inl hx)
  · simp only [List.mem_flatMap] at hx
    obtain ⟨b, hb, hx⟩ := hx
    have hblt : b < 256 := utf8Bytes_lt c b hb
    simp only [pctEncByte, List.mem_cons, List.mem_singleton, List.not_mem_nil,
      or_false] at hx
    rcases hx with h | h | h
    · exact Or.inr (Or.inr (Or.inl h))
    · exact Or.inr (Or.inr (Or.inr (h ▸ isHexDigit_hexUpper _ (by omega))))
    · exact Or.inr (Or.inr (Or.inr (h ▸ isHexDigit_hexUpper _ (by omega))))

theorem quotePlus_not_mem {x : Char} (h1 : alwaysSafe x = false) (h2 : ¬ x = '+')
    (h3 : ¬ x = '%') (h4 : isHexDigit x = false) (s : Str) : ¬ x ∈ quotePlus s := by
  intro hx
  rcases mem_quotePlus hx with h | h | h | h
  · rw [h1] at h; exact Bool.false_ne_true h
  · exact h2 h
  · exact h3 h
  · rw [h4] at h; exact Bool.false_ne_true h

theorem amp_not_mem_quotePlus (s : Str) : ¬ '&' ∈ quotePlus s :=
  quotePlus_not_mem (by decide) (by decide) (by decide) (by decide) s

theorem eq_not_mem_quotePlus (s : Str) : ¬ '=' ∈ quotePlus s :=
  quotePlus_not_mem (by decide) (by decide) (by decide) (by decide) s

theorem quotePlusChar_ne_nil (c : Char) : quotePlusChar c ≠ [] := by
  simp only [quotePlusChar]
  split_ifs with h1 h2
  · simp
  · simp
  · obtain ⟨b0, bsT, hby⟩ : ∃ b0 bsT, utf8Bytes c = b0 :: bsT := by
      match heq : utf8Bytes c with
      | [] => exact absurd heq (utf8Bytes_ne_nil c)
      | b0 :: bsT => exact ⟨b0, bsT, rfl⟩
    rw [hby]
    simp [pctEncByte]

theorem quotePlus_ne_nil {s : Str} (hs : s ≠ []) : quotePlus s ≠ [] := by
  match s with
  | [] => exact absurd rfl hs
  | c :: s =>
    simp only [quotePlus, List.flatMap_cons]
    intro h
    rcases List.append_eq_nil.mp h with ⟨h1, _⟩
    exact quotePlusChar_ne_nil c h1

theorem utf8Decode_ne_nil {bs : List Nat} (h : bs ≠ []) : utf8Decode bs ≠ [] := by
  match bs with
  | [] => exact absurd rfl h
  | b :: bs =>
    rw [utf8Decode.eq_def]
    split
    · simp_all
    · split_ifs <;> try simp
      all_goals (split <;> try split_ifs) <;> try simp
      all_goals (split <;> try split_ifs) <;> try simp
      all_goals (split <;> try split_ifs) <;> simp

theorem unquote_ne_nil {t : Str} (h : t ≠ []) : unquote t ≠ [] := by
  match t with
  | [c] => rw [unquote]; simp [unquoteAcc, utf8Decode]
  | [c, d] => rw [unquote]; simp [unquoteAcc, utf8Decode]
  | c :: h1 :: l :: rest =>
    rw [unquote, unquoteAcc.eq_def]
    by_cases hx : (c = '%' && isHexDigit h1 && isHexDigit l) = true
    · simp only [hx, if_true]
      rw [unquoteAcc_eq]
      intro hcon
      rcases List.append_eq_nil.mp hcon with ⟨h1, _⟩
      exact utf8Decode_ne_nil (by simp) h1
    · simp only [hx, Bool.false_eq_true, if_false]
      simp [utf8Decode]

theorem unquotePlus_ne_nil {s : Str} (h : s ≠ []) : unquotePlus s ≠ [] := by
  apply unquote_ne_nil
  simp [h]

theorem splitFirst_of_not_mem {ch : Char} {s : Str} (h : ¬ ch ∈ s) :
    splitFirst ch s = none := by
  induction s with
  | nil => rfl
  | cons c s ih =>
    simp only [List.mem_cons, not_or] at h
    have hcc : ¬ (c = ch) := fun hcc => h.1 hcc.symm
    simp only [splitFirst]
    rw [if_neg hcc, ih h.2]
    rfl

theorem splitFirst_append {ch : Char} {A : Str} (h : ¬ ch ∈ A) (B : Str) :
    splitFirst ch (A ++ ch :: B) = some (A, B) := by
  induction A with
  | nil => simp [splitFirst]
  | cons c A ih =>
    simp only [List.mem_cons, not_or] at h
    have hcc : ¬ (c = ch) := fun hcc => h.1 hcc.symm
    simp only [List.cons_append, splitFirst]
    rw [if_neg hcc]
    show Option.map _ (splitFirst ch (A ++ ch :: B)) = _
    rw [ih h.2]
    rfl

theorem parseField_encPair (k v : Str) (hv : v ≠ []) :
    parseField (encPair k v) = some (k, v) := by
  have h2 : splitFirst '=' (quotePlus k ++ '=' :: quotePlus v) =
      some (quotePlus k, quotePlus v) :=
    splitFirst_append (eq_not_mem_quotePlus k) _
  simp [parseField, encPair, h2, unquotePlus_quotePlus, quotePlus_ne_nil hv]

theorem encPair_no_amp (k v : Str) : ¬ '&' ∈ encPair k v := by
  simp only [encPair, List.mem_append, List.mem_cons, not_or]
  exact ⟨amp_not_mem_quotePlus k, by decide, amp_not_mem_quotePlus v⟩

theorem encPair_ne_nil (k v : Str) : encPair k v ≠ [] := by
  simp [encPair]

/-- The flattened (name, value) occurrence list a dict `d` denotes. -/
def flatPairs (d : List (Str × List Str)) : List (Str × Str) :=
  d.flatMap (fun kv => kv.2.map (fun v => (kv.1, v)))

theorem filterMap_parseField_vals (k : Str) (vs : List Str)
    (h : ∀ v ∈ vs, v ≠ []) :
    (vs.map (encPair k)).filterMap parseField = vs.map (fun v => (k, v)) := by
  induction vs with
  | nil => rfl
  | cons v vs ihv =>
    have hvne : v ≠ [] := h v (List.mem_cons_self _ _)
    have hvs2 : ∀ w ∈ vs, w ≠ [] := fun w hw => h w (List.mem_cons_of_mem _ hw)
    simp only [List.map_cons, List.filterMap_cons, parseField_encPair k v hvne]
    rw [ihv hvs2]

theorem filterMap_parseField_encFields (d : List (Str × List Str))
    (hvs : ∀ kv ∈ d, ∀ v ∈ kv.2, v ≠ []) :
    (encFields d).filterMap parseField = flatPairs d := by
  induction d with
  | nil => rfl
  | cons kv d ih =>
    have hkv : ∀ v ∈ kv.2, v ≠ [] := hvs kv (List.mem_cons_self _ _)
    have hrest : ∀ kv2 ∈ d, ∀ v ∈ kv2.2, v ≠ [] :=
      fun kv2 h2 => hvs kv2 (List.mem_cons_of_mem _ h2)
    simp only [encFields, flatPairs, List.flatMap_cons, List.filterMap_append]
    rw [show (d.flatMap (fun kv => kv.2.map (encPair kv.1))).filterMap parseField
        = flatPairs d from ih hrest]
    rw [filterMap_parseField_vals kv.1 kv.2 hkv]
    rfl

theorem parse_qsl_urlencode (d : List (Str × List Str))
    (hvs : ∀ kv ∈ d, ∀ v ∈ kv.2, v ≠ []) :
    parse_qsl (urlencode d) = flatPairs d := by
  have hfields : ∀ f ∈ encFields d, ¬ '&' ∈ f ∧ f ≠ [] := by
    intro f hf
    simp only [encFields, List.mem_flatMap, List.mem_map] at hf
    obtain ⟨kv, _, v, _, rfl⟩ := hf
    exact ⟨encPair_no_amp _ _, encPair_ne_nil _ _⟩
  by_cases hd : encFields d = []
  · have hflat : flatPairs d = [] := by
      simp only [encFields, List.flatMap_eq_nil_iff] at hd
      simp only [flatPairs, List.flatMap_eq_nil_iff]
      intro kv hkv
      have := hd kv hkv
      simp only [List.map_eq_nil_iff] at this ⊢
      exact this
    rw [hflat, urlencode, hd]
    rfl
  · have hsplit : (urlencode d).splitOn '&' = encFields d := by
      rw [urlencode, joinAmp]
      exact List.splitOn_intercalate _ '&' (fun l hl => (hfields l hl).1) hd
    have hne : urlencode d ≠ [] := by
      intro hcon
      have hemp : encFields d = [[]] := by
        rw [← hsplit, hcon]; rfl
      have h0 : ([] : Str) ∈ encFields d := by rw [hemp]; simp
      exact (hfields [] h0).2 rfl
    simp only [parse_qsl, if_neg hne, hsplit]
    exact filterMap_parseField_encFields d hvs

/-- Keys of a dict, in insertion order. -/
def keysOf (d : List (Str × List Str)) : List Str := d.map Prod.fst

theorem addPair_hasKey {acc : List (Str × List Str)} {kv : Str × Str}
    (h : kv.1 ∈ keysOf acc) :
    addPair acc kv = acc.map
      (fun e => if e.1 == kv.1 then (e.1, e.2 ++ [kv.2]) else e) := by
  have hany : acc.any (fun e => e.1 == kv.1) = true := by
    simp only [keysOf, List.mem_map] at h
    obtain ⟨e, he, hkey⟩ := h
    exact List.any_eq_true.mpr ⟨e, he, by simp [hkey]⟩
  simp [addPair, hany]

theorem addPair_newKey {acc : List (Str × List Str)} {kv : Str × Str}
    (h : ¬ kv.1 ∈ keysOf acc) :
    addPair acc kv = acc ++ [(kv.1, [kv.2])] := by
  have hany : acc.any (fun e => e.1 == kv.1) = false := by
    rw [List.any_eq_false]
    intro e he
    simp only [beq_iff_eq]
    intro hkey
    exact h (by simp only [keysOf, List.mem_map]; exact ⟨e, he, hkey⟩)
  simp [addPair, hany]

theorem foldl_addPair_ext (vs : List Str) (B : List (Str × List Str)) (k : Str)
    (ws : List Str) (hB : ¬ k ∈ keysOf B) :
    (vs.map (fun v => (k, v))).foldl addPair (B ++ [(k, ws)]) =
      B ++ [(k, ws ++ vs)] := by
  induction vs generalizing ws with
  | nil => simp
  | cons v vs ih =>
    simp only [List.map_cons, List.foldl_cons]
    have hk : ((k, v) : Str × Str).1 ∈ keysOf (B ++ [(k, ws)]) := by
      simp [keysOf]
    rw [addPair_hasKey hk]
    have hmap : (B ++ [(k, ws)]).map
        (fun e => if e.1 == (k, v).1 then (e.1, e.2 ++ [(k, v).2]) else e) =
        B ++ [(k, ws ++ [v])] := by
      rw [List.map_append]
      congr 1
      · have hcg : ∀ e ∈ B,
            (if e.1 == (k, v).1 then (e.1, e.2 ++ [(k, v).2]) else e) = id e := by
          intro e he
          have hek : ¬ (e.1 = k) := fun hcon =>
            hB (by simp only [keysOf, List.mem_map]; exact ⟨e, he, hcon⟩)
          simp [hek]
        rw [List.map_congr_left hcg, List.map_id]
      · simp
    rw [hmap, ih (ws ++ [v])]
    simp

theorem foldl_addPair_new (vs : List Str) (acc : List (Str × List Str)) (k : Str)
    (h : ¬ k ∈ keysOf acc) (hvs : vs ≠ []) :
    (vs.map (fun v => (k, v))).foldl addPair acc = acc ++ [(k, vs)] := by
  match vs with
  | [] => exact absurd rfl hvs
  | v :: vs =>
    simp only [List.map_cons, List.foldl_cons]
    rw [addPair_newKey h, foldl_addPair_ext vs acc k [v] h]
    rfl

theorem foldl_addPair_flat (d acc : List (Str × List Str))
    (hnd : (keysOf d).Nodup)
    (hdis : ∀ k ∈ keysOf d, ¬ k ∈ keysOf acc)
    (hvl : ∀ kv ∈ d, kv.2 ≠ []) :
    (flatPairs d).foldl addPair acc = acc ++ d := by
  induction d generalizing acc with
  | nil => simp [flatPairs]
  | cons kv d ih =>
    simp only [flatPairs, List.flatMap_cons, List.foldl_append]
    have hk : ¬ kv.1 ∈ keysOf acc := hdis kv.1 (by simp [keysOf])
    rw [foldl_addPair_new kv.2 acc kv.1 hk (hvl kv (List.mem_cons_self _ _))]
    have hnd2 : (keysOf d).Nodup := by
      simp only [keysOf, List.map_cons, List.nodup_cons] at hnd
      exact hnd.2
    have hdis2 : ∀ k ∈ keysOf d, ¬ k ∈ keysOf (acc ++ [(kv.1, kv.2)]) := by
      intro k hkd
      simp only [keysOf, List.map_append, List.mem_append, List.map_cons,
        List.map_nil, List.mem_singleton, not_or]
      constructor
      · exact hdis k (by simp only [keysOf, List.map_cons]; exact List.mem_cons_of_mem _ hkd)
      · intro hcon
        simp only [keysOf, List.map_cons, List.nodup_cons] at hnd
        exact hnd.1 (hcon ▸ hkd)
    have hvl2 : ∀ kv2 ∈ d, kv2.2 ≠ [] := fun kv2 h2 => hvl kv2 (List.mem_cons_of_mem _ h2)
    show List.foldl addPair (acc ++ [(kv.1, kv.2)]) (flatPairs d) = acc ++ kv :: d
    rw [show ((kv.1, kv.2) : Str × List Str) = kv from rfl]
    rw [ih (acc ++ [kv]) hnd2 hdis2 hvl2]
    simp

/-- `parse_qs` inverts `urlencode` on dict-shaped data: distinct keys,
non-empty value lists, non-empty value strings. -/
theorem parse_qs_urlencode (d : List (Str × List Str))
    (hnd : (keysOf d).Nodup)
    (hvl : ∀ kv ∈ d, kv.2 ≠ [])
    (hvs : ∀ kv ∈ d, ∀ v ∈ kv.2, v ≠ []) :
    parse_qs (urlencode d) = d := by
  rw [parse_qs, parse_qsl_urlencode d hvs,
    foldl_addPair_flat d [] hnd (by simp [keysOf]) hvl]
  rfl

theorem parseField_some_val {f : Str} {kv : Str × Str}
    (h : parseField f = some kv) : kv.2 ≠ [] := by
  by_cases hf : f = []
  · rw [parseField, if_pos hf] at h
    exact absurd h (by simp)
  · rw [parseField, if_neg hf] at h
    match hsp : splitFirst '=' f with
    | none => rw [hsp] at h; exact absurd h (by simp)
    | some (n, val) =>
      rw [hsp] at h
      by_cases hval : val = []
      · simp only [hval, if_pos] at h
        exact absurd h (by simp)
      · simp only [hval, if_neg, if_false] at h
        have : kv = (unquotePlus n, unquotePlus val) := by
          exact (Option.some_inj.mp h).symm
        rw [this]
        exact unquotePlus_ne_nil hval

theorem parse_qsl_val_ne_nil (qs : Str) : ∀ kv ∈ parse_qsl qs, kv.2 ≠ [] := by
  intro kv hkv
  rw [parse_qsl] at hkv
  split_ifs at hkv with h
  · exact absurd hkv (by simp)
  · rw [List.mem_filterMap] at hkv
    obtain ⟨f, _, hf⟩ := hkv
    exact parseField_some_val hf

theorem addPair_good {acc : List (Str × List Str)} {kv : Str × Str}
    (h1 : (keysOf acc).Nodup) (h2 : ∀ e ∈ acc, e.2 ≠ [])
    (h3 : ∀ e ∈ acc, ∀ v ∈ e.2, v ≠ []) (hkv : kv.2 ≠ []) :
    (keysOf (addPair acc kv)).Nodup ∧ (∀ e ∈ addPair acc kv, e.2 ≠ []) ∧
      (∀ e ∈ addPair acc kv, ∀ v ∈ e.2, v ≠ []) := by
  by_cases hk : kv.1 ∈ keysOf acc
  · rw [addPair_hasKey hk]
    refine ⟨?_, ?_, ?_⟩
    · have hkeys : keysOf (acc.map
          (fun e => if e.1 == kv.1 then (e.1, e.2 ++ [kv.2]) else e)) = keysOf acc := by
        simp only [keysOf, List.map_map]
        apply List.map_congr_left
        intro e _
        simp only [Function.comp_apply]
        split_ifs <;> rfl
      rw [hkeys]
      exact h1
    · intro e he
      rw [List.mem_map] at he
      obtain ⟨e0, he0, rfl⟩ := he
      split_ifs
      · simp
      · exact h2 e0 he0
    · intro e he v hv
      rw [List.mem_map] at he
      obtain ⟨e0, he0, rfl⟩ := he
      by_cases hcase : (e0.1 == kv.1) = true
      · simp only [hcase, if_true] at hv
        simp only [List.mem_append, List.mem_singleton] at hv
        rcases hv with hv | hv
        · exact h3 e0 he0 v hv
        · exact hv ▸ hkv
      · simp only [hcase, Bool.false_eq_true, if_false] at hv
        exact h3 e0 he0 v hv
  · rw [addPair_newKey hk]
    refine ⟨?_, ?_, ?_⟩
    · simp only [keysOf, List.map_append, List.map_cons, List.map_nil]
      rw [List.nodup_append]
      refine ⟨h1, List.nodup_singleton _, ?_⟩
      intro a ha hb
      simp only [List.mem_singleton] at hb
      exact hk (hb ▸ ha)
    · intro e he
      simp only [List.mem_append, List.mem_singleton] at he
      rcases he with he | he
      · exact h2 e he
      · rw [he]; simp
    · intro e he v hv
      simp only [List.mem_append, List.mem_singleton] at he
      rcases he with he | he
      · exact h3 e he v hv
      · rw [he] at hv
        simp only [List.mem_singleton] at hv
        exact hv ▸ hkv

theorem foldl_addPair_good (l : List (Str × Str)) (hl : ∀ kv ∈ l, kv.2 ≠ []) :
    ∀ acc, (keysOf acc).Nodup → (∀ e ∈ acc, e.2 ≠ []) →
      (∀ e ∈ acc, ∀ v ∈ e.2, v ≠ []) →
      (keysOf (l.foldl addPair acc)).Nodup ∧
        (∀ e ∈ l.foldl addPair acc, e.2 ≠ []) ∧
        (∀ e ∈ l.foldl addPair acc, ∀ v ∈ e.2, v ≠ []) := by
  induction l with
  | nil => intro acc h1 h2 h3; exact ⟨h1, h2, h3⟩
  | cons kv l ih =>
    intro acc h1 h2 h3
    have hkv : kv.2 ≠ [] := hl kv (List.mem_cons_self _ _)
    have hl2 : ∀ kv2 ∈ l, kv2.2 ≠ [] := fun kv2 h => hl kv2 (List.mem_cons_of_mem _ h)
    obtain ⟨g1, g2, g3⟩ := addPair_good h1 h2 h3 hkv
    exact ih hl2 (addPair acc kv) g1 g2 g3

/-- `parse_qs` output is dict-shaped: keys distinct, value lists non-empty,
value strings non-empty. -/
theorem parse_qs_good (qs : Str) :
    (keysOf (parse_qs qs)).Nodup ∧ (∀ e ∈ parse_qs qs, e.2 ≠ []) ∧
      (∀ e ∈ parse_qs qs, ∀ v ∈ e.2, v ≠ []) := by
  rw [parse_qs]
  exact foldl_addPair_good (parse_qsl qs) (parse_qsl_val_ne_nil qs) []
    (by simp [keysOf]) (by simp) (by simp)

/-! ## Facts about `splitFirst`, `cutAt`, `takeWhile`/`dropWhile` -/

theorem splitFirst_eq_some {ch : Char} {s x y : Str}
    (h : splitFirst ch s = some (x, y)) : s = x ++ ch :: y ∧ ¬ ch ∈ x := by
  induction s generalizing x with
  | nil => exact absurd h (by simp [splitFirst])
  | cons c s ih =>
    by_cases hc : c = ch
    · rw [splitFirst, if_pos hc] at h
      obtain ⟨hx, hy⟩ : x = [] ∧ y = s := by
        have := Option.some_inj.mp h
        exact ⟨congrArg Prod.fst this |>.symm, congrArg Prod.snd this |>.symm⟩
      subst hx; subst hy
      exact ⟨by rw [hc]; rfl, List.not_mem_nil ch⟩
    · rw [splitFirst, if_neg hc] at h
      match hsp : splitFirst ch s with
      | none => rw [hsp] at h; exact absurd h (by simp)
      | some (a, b) =>
        rw [hsp] at h
        simp only [Option.map_some', Option.some_inj] at h
        obtain ⟨hx, hy⟩ : x = c :: a ∧ y = b := by
          exact ⟨congrArg Prod.fst h |>.symm, congrArg Prod.snd h |>.symm⟩
        subst hx; subst hy
        obtain ⟨hs, hna⟩ := ih hsp
        constructor
        · rw [hs]; rfl
        · simp only [List.mem_cons, not_or]
          exact ⟨fun hcon => hc hcon.symm, hna⟩

theorem splitFirst_isSome_of_mem {ch : Char} {s : Str} (h : ch ∈ s) :
    (splitFirst ch s).isSome := by
  induction s with
  | nil => simp at h
  | cons c s ih =>
    by_cases hc : c = ch
    · simp [splitFirst, hc]
    · rw [splitFirst, if_neg hc]
      have hs : ch ∈ s := by
        rcases List.mem_cons.mp h with h | h
        · exact absurd h.symm hc
        · exact h
      match hsp : splitFirst ch s with
      | none => rw [hsp] at ih; exact absurd (ih hs) (by simp)
      | some p => simp

theorem cutAt_no_mem {ch : Char} {u : Str} (h : ¬ ch ∈ u) : cutAt ch u = (u, []) := by
  rw [cutAt, splitFirst_of_not_mem h]

theorem cutAt_append {ch : Char} {A : Str} (h : ¬ ch ∈ A) (B : Str) :
    cutAt ch (A ++ ch :: B) = (A, B) := by
  rw [cutAt, splitFirst_append h]

theorem cutAt_fst_not_mem (ch : Char) (u : Str) : ¬ ch ∈ (cutAt ch u).1 := by
  rw [cutAt]
  match hsp : splitFirst ch u with
  | none =>
    intro hm
    have h2 := splitFirst_isSome_of_mem (show ch ∈ u from hm)
    rw [hsp] at h2
    simp at h2
  | some (a, b) => exact (splitFirst_eq_some hsp).2

theorem cutAt_mem_subset (ch : Char) (u : Str) :
    (∀ c ∈ (cutAt ch u).1, c ∈ u) ∧ (∀ c ∈ (cutAt ch u).2, c ∈ u) := by
  rw [cutAt]
  match hsp : splitFirst ch u with
  | none => simp
  | some (a, b) =>
    obtain ⟨hu, _⟩ := splitFirst_eq_some hsp
    rw [hu]
    constructor <;> intro c hc <;> simp [hc]

theorem takeWhile_append_all {p : Char → Bool} {A : Str} (h : ∀ a ∈ A, p a = true)
    (B : Str) : (A ++ B).takeWhile p = A ++ B.takeWhile p ∧
      (A ++ B).dropWhile p = B.dropWhile p := by
  induction A with
  | nil => simp
  | cons a A ih =>
    have ha : p a = true := h a (List.mem_cons_self _ _)
    have hA : ∀ x ∈ A, p x = true := fun x hx => h x (List.mem_cons_of_mem _ hx)
    simp only [List.cons_append, List.takeWhile_cons, List.dropWhile_cons, ha,
      if_true]
    exact ⟨by rw [(ih hA).1], (ih hA).2⟩

theorem takeWhile_head_neg {p : Char → Bool} {b : Char} (hb : p b = false)
    (B : Str) : (b :: B).takeWhile p = [] ∧ (b :: B).dropWhile p = b :: B := by
  simp [List.takeWhile_cons, List.dropWhile_cons, hb]

theorem contains_of_mem {l : Str} {c : Char} (h : c ∈ l) : l.contains c = true :=
  List.elem_iff.mpr h

theorem contains_of_not_mem {l : Str} {c : Char} (h : ¬ c ∈ l) :
    l.contains c = false := by
  cases hc : List.contains l c
  · rfl
  · exact absurd (List.elem_iff.mp hc) h

/-! ## Facts about `splitParams` / `paramsSplit` -/

theorem exists_last_slash {u : Str} (h : '/' ∈ u) :
    ∃ A0 B, u = A0 ++ '/' :: B ∧ ¬ '/' ∈ B := by
  induction u with
  | nil => simp at h
  | cons c u ih =>
    by_cases hu : '/' ∈ u
    · obtain ⟨A0, B, hdec, hB⟩ := ih hu
      exact ⟨c :: A0, B, by rw [hdec]; rfl, hB⟩
    · have hc : c = '/' := by
        rcases List.mem_cons.mp h with h | h
        · exact h.symm
        · exact absurd h hu
      exact ⟨[], u, by rw [hc]; rfl, hu⟩

theorem splitParams_of_decomp {u A0 B : Str} (hu : u = A0 ++ '/' :: B)
    (hB : ¬ '/' ∈ B) :
    splitParams u = (match splitFirst ';' B with
      | none => (u, [])
      | some (b1, b2) => (A0 ++ '/' :: b1, b2)) := by
  have hsl : u.contains '/' = true := by
    rw [hu]
    exact contains_of_mem (by simp)
  have hrev : u.reverse = B.reverse ++ '/' :: A0.reverse := by
    rw [hu]
    simp
  have hBrev : ∀ c ∈ B.reverse, (!(c == '/')) = true := by
    intro c hc
    rw [List.mem_reverse] at hc
    simp only [Bool.not_eq_true', beq_eq_false_iff_ne]
    exact fun hcon => hB (hcon ▸ hc)
  have htw : u.reverse.takeWhile (fun c => !(c == '/')) = B.reverse := by
    rw [hrev, (takeWhile_append_all hBrev _).1]
    rw [(takeWhile_head_neg (by simp) _).1]
    simp
  have hdw : u.reverse.dropWhile (fun c => !(c == '/')) = '/' :: A0.reverse := by
    rw [hrev, (takeWhile_append_all hBrev _).2]
    rw [(takeWhile_head_neg (by simp) _).2]
  rw [splitParams, if_pos hsl]
  simp only [htw, hdw, List.reverse_reverse, List.reverse_cons]
  match hsp : splitFirst ';' B with
  | none => rfl
  | some (b1, b2) => simp

theorem splitParams_noslash {u : Str} (hsl : ¬ '/' ∈ u) :
    splitParams u = (match splitFirst ';' u with
      | none => (u, [])
      | some (p1, p2) => (p1, p2)) := by
  rw [splitParams, if_neg (by rw [contains_of_not_mem hsl]; simp)]

/-- Re-splitting the re-joined path and params of a `paramsSplit` returns the
same path and params (the fact `urlparse ∘ urlunparse` needs about params). -/
theorem paramsSplit_join (scheme u : Str) :
    paramsSplit scheme
      (joinParams (paramsSplit scheme u).1 (paramsSplit scheme u).2) =
      paramsSplit scheme u := by
  by_cases hg : (usesParams.contains scheme && u.contains ';') = true
  · have hgoal : paramsSplit scheme u = splitParams u := by
      rw [paramsSplit, if_pos hg]
    have hus : usesParams.contains scheme = true := by
      rcases Bool.and_eq_true .. |>.mp hg with ⟨h1, _⟩
      exact h1
    rw [hgoal]
    by_cases hsl : '/' ∈ u
    · obtain ⟨A0, B, hdec, hB⟩ := exists_last_slash hsl
      have hchar := splitParams_of_decomp hdec hB
      match hsp : splitFirst ';' B with
      | none =>
        rw [hsp] at hchar
        rw [hchar]
        simp only [joinParams, ne_eq, not_true_eq_false, if_false, ite_false]
        rw [paramsSplit, if_pos hg, hchar]
      | some (b1, b2) =>
        rw [hsp] at hchar
        obtain ⟨hBdec, hb1⟩ := splitFirst_eq_some hsp
        have hb1slash : ¬ '/' ∈ b1 := fun hc => hB (by rw [hBdec]; simp [hc])
        have hb2slash : ¬ '/' ∈ b2 := fun hc => hB (by rw [hBdec]; simp [hc])
        rw [hchar]
        by_cases hb2 : b2 = []
        · subst hb2
          simp only [joinParams, ne_eq, not_true_eq_false, if_false, ite_false]
          by_cases hsemi : ';' ∈ (A0 ++ '/' :: b1 : Str)
          · have hg2 : (usesParams.contains scheme &&
                (A0 ++ '/' :: b1 : Str).contains ';') = true := by
              rw [hus, contains_of_mem hsemi]
              rfl
            rw [paramsSplit, if_pos hg2]
            rw [splitParams_of_decomp (show (A0 ++ '/' :: b1 : Str) =
              A0 ++ '/' :: b1 from rfl) hb1slash]
            rw [splitFirst_of_not_mem hb1]
          · rw [paramsSplit,
              if_neg (by rw [contains_of_not_mem hsemi, Bool.and_false]; simp)]
        · have hjoin : joinParams (A0 ++ '/' :: b1) b2 =
              (A0 ++ '/' :: b1) ++ ';' :: b2 := by
            simp [joinParams, hb2]
          rw [hjoin]
          have hg2 : (usesParams.contains scheme &&
              ((A0 ++ '/' :: b1) ++ ';' :: b2 : Str).contains ';') = true := by
            rw [hus, contains_of_mem (show (';' : Char) ∈ _ by simp)]
            rfl
          rw [paramsSplit, if_pos hg2]
          have hdec2 : ((A0 ++ '/' :: b1) ++ ';' :: b2 : Str) =
              A0 ++ '/' :: (b1 ++ ';' :: b2) := by simp
          have hBne : ¬ '/' ∈ (b1 ++ ';' :: b2 : Str) := by
            simp only [List.mem_append, List.mem_cons, not_or]
            exact ⟨hb1slash, by decide, hb2slash⟩
          rw [splitParams_of_decomp hdec2 hBne, splitFirst_append hb1]
    · have hchar := splitParams_noslash hsl
      match hsp : splitFirst ';' u with
      | none =>
        rw [hsp] at hchar
        rw [hchar]
        simp only [joinParams, ne_eq, not_true_eq_false, if_false, ite_false]
        rw [paramsSplit, if_pos hg, hchar]
      | some (p1, p2) =>
        rw [hsp] at hchar
        obtain ⟨hdec, hp1⟩ := splitFirst_eq_some hsp
        have hp1slash : ¬ '/' ∈ p1 := fun hc => hsl (by rw [hdec]; simp [hc])
        have hp2slash : ¬ '/' ∈ p2 := fun hc => hsl (by rw [hdec]; simp [hc])
        rw [hchar]
        by_cases hp2 : p2 = []
        · subst hp2
          simp only [joinParams, ne_eq, not_true_eq_false, if_false, ite_false]
          rw [paramsSplit,
            if_neg (by rw [contains_of_not_mem hp1, Bool.and_false]; simp)]
        · have hjoin : joinParams p1 p2 = p1 ++ ';' :: p2 := by
            simp [joinParams, hp2]
          rw [hjoin]
          have hg2 : (usesParams.contains scheme &&
              (p1 ++ ';' :: p2 : Str).contains ';') = true := by
            rw [hus, contains_of_mem (show (';' : Char) ∈ _ by simp)]
            rfl
          rw [paramsSplit, if_pos hg2]
          have hnos : ¬ '/' ∈ (p1 ++ ';' :: p2 : Str) := by
            simp only [List.mem_append, List.mem_cons, not_or]
            exact ⟨hp1slash, by decide, hp2slash⟩
          rw [splitParams_noslash hnos, splitFirst_append hp1]
  · have h1 : paramsSplit scheme u = (u, []) := by
      rw [paramsSplit, if_neg (by simp_all)]
    rw [h1]
    simp only [joinParams, ne_eq, not_true_eq_false, if_false, ite_false]
    exact h1

/-! ## Round trip: `urlsplit ∘ urlunsplit` and `urlparse ∘ urlunparse` -/

/-- No `\t`, `\r`, `\n` anywhere in a string. -/
def noUnsafe (s : Str) : Prop := ∀ c ∈ s, unsafeChar c = false

theorem noUnsafe_append {A B : Str} (hA : noUnsafe A) (hB : noUnsafe B) :
    noUnsafe (A ++ B) := by
  intro c hc
  rcases List.mem_append.mp hc with h | h
  · exact hA c h
  · exact hB c h

theorem noUnsafe_cons {c : Char} {s : Str} (hc : unsafeChar c = false)
    (hs : noUnsafe s) : noUnsafe (c :: s) := by
  intro d hd
  rcases List.mem_cons.mp hd with h | h
  · exact h ▸ hc
  · exact hs d h

theorem noUnsafe_nil : noUnsafe [] := fun c hc => absurd hc (List.not_mem_nil c)

theorem removeUnsafe_eq_self {s : Str} (h : noUnsafe s) : removeUnsafe s = s := by
  rw [removeUnsafe, List.filter_eq_self]
  intro c hc
  rw [h c hc]
  rfl

theorem urlsplit_unsplit (scheme netloc path0 query fragment : Str)
    (hs : scheme = "http".toList ∨ scheme = "https".toList)
    (hnn : netloc ≠ [])
    (hn1 : ∀ c ∈ netloc, netlocBreak c = false)
    (hn2 : bracketMismatch netloc = false)
    (hn3 : noUnsafe netloc)
    (hp0 : path0 = [] ∨ ∃ t, path0 = '/' :: t)
    (hp1 : ¬ '#' ∈ path0) (hp2 : ¬ '?' ∈ path0)
    (hp3 : noUnsafe path0)
    (hq1 : ¬ '#' ∈ query) (hq3 : noUnsafe query)
    (hf3 : noUnsafe fragment) :
    urlsplitE (urlunsplit scheme netloc path0 query fragment) =
      .ok (scheme, netloc, path0, query, fragment) := by
  set qt : Str := if query = [] then [] else '?' :: query with hqt
  set ft : Str := if fragment = [] then [] else '#' :: fragment with hft
  -- the serialized URL
  have hu : urlunsplit scheme netloc path0 query fragment =
      scheme ++ ':' :: '/' :: '/' :: (netloc ++ (path0 ++ (qt ++ ft))) := by
    rw [urlunsplit]
    simp only []
    rw [if_pos (Or.inl hnn)]
    have hins : (if path0 ≠ [] ∧ path0.take 1 ≠ ['/'] then '/' :: path0 else path0)
        = path0 := by
      rcases hp0 with h | ⟨t, h⟩
      · rw [if_neg (by simp [h])]
      · rw [if_neg (by simp [h])]
    rw [hins]
    have hsne : scheme ≠ [] := by rcases hs with h | h <;> simp [h]
    rw [if_pos hsne]
    have hq : ∀ X : Str, (if query ≠ [] then X ++ '?' :: query else X) = X ++ qt := by
      intro X
      by_cases h : query = []
      · rw [if_neg (by simp [h]), hqt, if_pos h]
        simp
      · rw [if_pos h, hqt, if_neg h]
    have hf : ∀ X : Str, (if fragment ≠ [] then X ++ '#' :: fragment else X)
        = X ++ ft := by
      intro X
      by_cases h : fragment = []
      · rw [if_neg (by simp [h]), hft, if_pos h]
        simp
      · rw [if_pos h, hft, if_neg h]
    rw [hq, hf]
    simp [List.append_assoc]
  rw [hu]
  -- no unsafe bytes anywhere, and no leading strip
  have hschars : noUnsafe scheme ∧ ¬ ':' ∈ scheme ∧ c0OrSpace 'h' = false := by
    rcases hs with h | h <;> rw [h] <;>
      exact ⟨by unfold noUnsafe; decide, by decide, by decide⟩
  have hqtfacts : noUnsafe qt ∧ ¬ '#' ∈ qt := by
    rw [hqt]
    by_cases h : query = []
    · rw [if_pos h]
      exact ⟨noUnsafe_nil, by simp⟩
    · rw [if_neg h]
      refine ⟨noUnsafe_cons (by decide) hq3, ?_⟩
      simp only [List.mem_cons, not_or]
      exact ⟨by decide, hq1⟩
  have hftfacts : noUnsafe ft := by
    rw [hft]
    by_cases h : fragment = []
    · rw [if_pos h]; exact noUnsafe_nil
    · rw [if_neg h]; exact noUnsafe_cons (by decide) hf3
  have hall : noUnsafe (scheme ++ ':' :: '/' :: '/' ::
      (netloc ++ (path0 ++ (qt ++ ft)))) := by
    refine noUnsafe_append hschars.1 ?_
    refine noUnsafe_cons (by decide) (noUnsafe_cons (by decide)
      (noUnsafe_cons (by decide) ?_))
    exact noUnsafe_append hn3 (noUnsafe_append hp3
      (noUnsafe_append hqtfacts.1 hftfacts))
  have hlstrip0 : ∀ (c : Char) (s : Str), c0OrSpace c = false →
      lstripC0 (c :: s) = c :: s := by
    intro c s hc
    rw [lstripC0, List.dropWhile_cons, hc]
    simp
  have hlstrip : lstripC0 (scheme ++ ':' :: '/' :: '/' ::
      (netloc ++ (path0 ++ (qt ++ ft)))) =
      scheme ++ ':' :: '/' :: '/' :: (netloc ++ (path0 ++ (qt ++ ft))) := by
    rcases hs with h | h <;> rw [h] <;>
      simp only [show ("http".toList : Str) = 'h' :: 't' :: 't' :: 'p' :: [] from rfl,
        show ("https".toList : Str) = 'h' :: 't' :: 't' :: 'p' :: 's' :: [] from rfl,
        List.cons_append, List.nil_append] <;>
      exact hlstrip0 _ _ (by decide)
  have hscheme : splitScheme (scheme ++ ':' :: '/' :: '/' ::
      (netloc ++ (path0 ++ (qt ++ ft)))) =
      (scheme, '/' :: '/' :: (netloc ++ (path0 ++ (qt ++ ft)))) := by
    rw [splitScheme, splitFirst_append hschars.2.1]
    rcases hs with h | h <;> rw [h] <;> rfl
  -- the netloc split
  have hn1b : ∀ c ∈ netloc, (fun c => !netlocBreak c) c = true := by
    intro c hc
    show (!netlocBreak c) = true
    rw [hn1 c hc]
    rfl
  have htails : ((path0 ++ (qt ++ ft)).takeWhile (fun c => !netlocBreak c) = []
      ∧ (path0 ++ (qt ++ ft)).dropWhile (fun c => !netlocBreak c)
        = path0 ++ (qt ++ ft)) := by
    rcases hp0 with h | ⟨t, h⟩
    · rw [h, List.nil_append]
      rw [hqt, hft]
      by_cases h1 : query = []
      · rw [if_pos h1, List.nil_append]
        by_cases h2 : fragment = []
        · rw [if_pos h2]
          exact ⟨rfl, rfl⟩
        · rw [if_neg h2]
          exact takeWhile_head_neg (by decide) _
      · rw [if_neg h1]
        exact takeWhile_head_neg (by decide) _
    · rw [h]
      exact takeWhile_head_neg (by decide) _
  have htw : (netloc ++ (path0 ++ (qt ++ ft))).takeWhile
      (fun c => !netlocBreak c) = netloc := by
    rw [(takeWhile_append_all hn1b _).1, htails.1]
    simp
  have hdw : (netloc ++ (path0 ++ (qt ++ ft))).dropWhile
      (fun c => !netlocBreak c) = path0 ++ (qt ++ ft) := by
    rw [(takeWhile_append_all hn1b _).2, htails.2]
  -- fragment and query cuts
  have hcf : cutAt '#' (path0 ++ (qt ++ ft)) = (path0 ++ qt, fragment) := by
    rw [hft]
    by_cases h : fragment = []
    · rw [if_pos h]
      rw [cutAt_no_mem (by
        simp only [List.append_nil, List.mem_append, not_or]
        exact ⟨hp1, hqtfacts.2⟩)]
      rw [h]
      simp
    · rw [if_neg h, show path0 ++ (qt ++ '#' :: fragment)
        = (path0 ++ qt) ++ '#' :: fragment by simp]
      exact cutAt_append (by
        simp only [List.mem_append, not_or]
        exact ⟨hp1, hqtfacts.2⟩) _
  have hcq : cutAt '?' (path0 ++ qt) = (path0, query) := by
    rw [hqt]
    by_cases h : query = []
    · rw [if_pos h]
      rw [List.append_nil, cutAt_no_mem hp2, h]
    · rw [if_neg h]
      exact cutAt_append hp2 _
  -- assemble
  rw [urlsplitE]
  simp only [hlstrip, removeUnsafe_eq_self hall, hscheme, List.take_succ_cons,
    List.take_zero, List.drop_succ_cons, List.drop_zero, htw, hdw, hcf, hcq, hn2,
    Bool.false_eq_true, if_true, if_false]

theorem urlparse_unparse (p : ParseResult)
    (hs : p.scheme = "http".toList ∨ p.scheme = "https".toList)
    (hnn : p.netloc ≠ [])
    (hn1 : ∀ c ∈ p.netloc, netlocBreak c = false)
    (hn2 : bracketMismatch p.netloc = false)
    (hn3 : noUnsafe p.netloc)
    (hj0 : joinParams p.path p.params = [] ∨
      ∃ t, joinParams p.path p.params = '/' :: t)
    (hj1 : ¬ '#' ∈ joinParams p.path p.params)
    (hj2 : ¬ '?' ∈ joinParams p.path p.params)
    (hj3 : noUnsafe (joinParams p.path p.params))
    (hq1 : ¬ '#' ∈ p.query) (hq3 : noUnsafe p.query)
    (hf3 : noUnsafe p.fragment)
    (hps : paramsSplit p.scheme (joinParams p.path p.params)
      = (p.path, p.params)) :
    urlparseE (urlunparse p) = .ok p := by
  rw [urlunparse, urlparseE,
    urlsplit_unsplit p.scheme p.netloc (joinParams p.path p.params) p.query
      p.fragment hs hnn hn1 hn2 hn3 hj0 hj1 hj2 hj3 hq1 hq3 hf3]
  simp only [hps]

/-! ## Facts holding of every successful parse (for the round trip) -/

theorem mem_of_mem_takeWhile {p : Char → Bool} {l : Str} {a : Char}
    (h : a ∈ l.takeWhile p) : p a = true ∧ a ∈ l :=
  ⟨List.mem_takeWhile_imp h, (List.takeWhile_sublist p).subset h⟩

theorem noUnsafe_removeUnsafe (s : Str) : noUnsafe (removeUnsafe s) := by
  intro c hc
  rw [removeUnsafe] at hc
  have := List.of_mem_filter hc
  simpa using this

theorem cutAt_fst_isPre (ch : Char) (u : Str) : (cutAt ch u).1 <+: u := by
  rw [cutAt]
  match hsp : splitFirst ch u with
  | none => exact List.prefix_rfl
  | some (a, b) =>
    obtain ⟨hu, _⟩ := splitFirst_eq_some hsp
    exact ⟨ch :: b, hu.symm⟩

theorem dropWhile_head_cases (p : Char → Bool) (l : Str) :
    l.dropWhile p = [] ∨
      ∃ d r, l.dropWhile p = d :: r ∧ p d = false := by
  induction l with
  | nil => exact Or.inl rfl
  | cons c l ih =>
    rw [List.dropWhile_cons]
    by_cases hc : p c = true
    · rw [if_pos hc]
      exact ih
    · rw [if_neg hc]
      exact Or.inr ⟨c, l, rfl, Bool.not_eq_true _ |>.mp hc⟩

theorem splitScheme_snd_subset (u : Str) : ∀ c ∈ (splitScheme u).2, c ∈ u := by
  match hsp : splitFirst ':' u with
  | none => rw [splitScheme, hsp]; exact fun c hc => hc
  | some (pre, post) =>
    obtain ⟨hu, _⟩ := splitFirst_eq_some hsp
    match pre with
    | [] => rw [splitScheme, hsp]; exact fun c hc => hc
    | c0 :: pre0 =>
      cases hok : (c0.isAlpha && (c0 :: pre0 : Str).all schemeChar) with
      | true =>
        simp only [splitScheme, hsp, hok, if_true]
        intro c hc
        rw [hu]
        simp [hc]
      | false =>
        simp only [splitScheme, hsp, hok, Bool.false_eq_true, if_false]
        exact fun c hc => hc

theorem netlocBreak_cases {c : Char} (h : netlocBreak c = true) :
    c = '/' ∨ c = '?' ∨ c = '#' := by
  simp only [netlocBreak, Bool.or_eq_true, beq_iff_eq] at h
  tauto

theorem paramsSplit_join_eq (scheme pt : Str) :
    joinParams (paramsSplit scheme pt).1 (paramsSplit scheme pt).2 = pt ∨
      pt = joinParams (paramsSplit scheme pt).1 (paramsSplit scheme pt).2
        ++ [';'] := by
  by_cases hg : (usesParams.contains scheme && pt.contains ';') = true
  · have hgoal : paramsSplit scheme pt = splitParams pt := by
      rw [paramsSplit, if_pos hg]
    rw [hgoal]
    by_cases hsl : '/' ∈ pt
    · obtain ⟨A0, B, hdec, hB⟩ := exists_last_slash hsl
      have hchar := splitParams_of_decomp hdec hB
      match hsp : splitFirst ';' B with
      | none =>
        rw [hsp] at hchar
        rw [hchar]
        simp [joinParams]
      | some (b1, b2) =>
        rw [hsp] at hchar
        obtain ⟨hBdec, hb1⟩ := splitFirst_eq_some hsp
        rw [hchar]
        by_cases hb2 : b2 = []
        · subst hb2
          refine Or.inr ?_
          simp only [joinParams, ne_eq, not_true_eq_false, if_false, ite_false]
          rw [hdec, hBdec]
          simp
        · refine Or.inl ?_
          simp only [joinParams, ne_eq, hb2, not_false_iff, if_true, ite_true]
          rw [hdec, hBdec]
          simp
    · have hchar := splitParams_noslash hsl
      match hsp : splitFirst ';' pt with
      | none =>
        rw [hsp] at hchar
        rw [hchar]
        simp [joinParams]
      | some (p1, p2) =>
        rw [hsp] at hchar
        obtain ⟨hdec, hp1⟩ := splitFirst_eq_some hsp
        rw [hchar]
        by_cases hp2 : p2 = []
        · subst hp2
          refine Or.inr ?_
          simp only [joinParams, ne_eq, not_true_eq_false, if_false, ite_false]
          rw [hdec]
        · refine Or.inl ?_
          simp only [joinParams, ne_eq, hp2, not_false_iff, if_true, ite_true]
          rw [hdec]
  · have h1 : paramsSplit scheme pt = (pt, []) := by
      rw [paramsSplit, if_neg (by simp_all)]
    rw [h1]
    simp [joinParams]

/-- A bundle of facts holding of the components of every successful
`urlparse`, sufficient to re-parse the re-serialized URL. -/
theorem urlparseE_ok_facts {url : Str} {p : ParseResult}
    (h : urlparseE url = .ok p) :
    (∀ c ∈ p.netloc, netlocBreak c = false) ∧
    bracketMismatch p.netloc = false ∧
    noUnsafe p.netloc ∧
    (joinParams p.path p.params = [] ∨
      (p.netloc = [] ∨ ∃ t, joinParams p.path p.params = '/' :: t)) ∧
    ¬ '#' ∈ joinParams p.path p.params ∧
    ¬ '?' ∈ joinParams p.path p.params ∧
    noUnsafe (joinParams p.path p.params) ∧
    ¬ '#' ∈ p.query ∧ noUnsafe p.query ∧ noUnsafe p.fragment ∧
    paramsSplit p.scheme (joinParams p.path p.params) = (p.path, p.params) := by
  rw [urlparseE] at h
  match hsp : urlsplitE url with
  | .error e => rw [hsp] at h; exact absurd h (by simp)
  | .ok (s, n, pt, q, f) =>
    rw [hsp] at h
    simp only [Except.ok.injEq] at h
    subst h
    -- facts at the urlsplit level
    have hu0 : noUnsafe (removeUnsafe (lstripC0 url)) := noUnsafe_removeUnsafe _
    rw [urlsplitE] at hsp
    simp only [] at hsp
    -- two branches of urlsplit
    by_cases htk : ((splitScheme (removeUnsafe (lstripC0 url))).2.take 2 :
        Str) = ['/', '/']
    · rw [if_pos htk] at hsp
      by_cases hbm : bracketMismatch
          (((splitScheme (removeUnsafe (lstripC0 url))).2.drop 2).takeWhile
            (fun c => !netlocBreak c)) = true
      · rw [if_pos hbm] at hsp
        exact absurd hsp (by simp)
      · rw [if_neg hbm] at hsp
        simp only [Except.ok.injEq, Prod.mk.injEq] at hsp
        obtain ⟨hseq, hneq, hpteq, hqeq, hfeq⟩ := hsp
        -- abbreviations
        have hnfacts : ∀ c ∈ n, netlocBreak c = false ∧
            c ∈ (splitScheme (removeUnsafe (lstripC0 url))).2.drop 2 := by
          intro c hc
          rw [← hneq] at hc
          obtain ⟨h1, h2⟩ := mem_of_mem_takeWhile hc
          refine ⟨?_, h2⟩
          simpa using h1
        have hmemu0 : ∀ c ∈ (splitScheme (removeUnsafe (lstripC0 url))).2.drop 2,
            c ∈ removeUnsafe (lstripC0 url) := by
          intro c hc
          exact splitScheme_snd_subset _ c (List.drop_subset _ _ hc)
        have hu2mem : ∀ c ∈ ((splitScheme (removeUnsafe (lstripC0 url))).2.drop
            2).dropWhile (fun c => !netlocBreak c),
            c ∈ removeUnsafe (lstripC0 url) := by
          intro c hc
          exact hmemu0 c ((List.dropWhile_sublist _).subset hc)
        have hXfacts : ¬ '#' ∈ (cutAt '#'
            (((splitScheme (removeUnsafe (lstripC0 url))).2.drop 2).dropWhile
              (fun c => !netlocBreak c))).1 := cutAt_fst_not_mem _ _
        have hXmem := cutAt_mem_subset '#'
          (((splitScheme (removeUnsafe (lstripC0 url))).2.drop 2).dropWhile
            (fun c => !netlocBreak c))
        have hQmem := cutAt_mem_subset '?' (cutAt '#'
          (((splitScheme (removeUnsafe (lstripC0 url))).2.drop 2).dropWhile
            (fun c => !netlocBreak c))).1
        -- pt facts
        have hpt1 : ¬ '#' ∈ pt := by
          rw [← hpteq]
          intro hc
          exact hXfacts (hQmem.1 '#' hc)
        have hpt2 : ¬ '?' ∈ pt := by
          rw [← hpteq]
          exact cutAt_fst_not_mem _ _
        have hptu : ∀ c ∈ pt, c ∈ removeUnsafe (lstripC0 url) := by
          intro c hc
          rw [← hpteq] at hc
          exact hu2mem c (hXmem.1 c (hQmem.1 c hc))
        have hpthead : pt = [] ∨ ∃ t, pt = '/' :: t := by
          rcases dropWhile_head_cases (fun c => !netlocBreak c)
            ((splitScheme (removeUnsafe (lstripC0 url))).2.drop 2) with hnil | hcons
          · left
            rw [← hpteq]
            rw [hnil]
            rfl
          · obtain ⟨d, r, hdr, hd⟩ := hcons
            have hdb : netlocBreak d = true := by simpa using hd
            have hpre : pt <+: d :: r := by
              rw [← hpteq, ← hdr]
              exact (cutAt_fst_isPre _ _).trans (cutAt_fst_isPre _ _)
            match hptc : pt with
            | [] => exact Or.inl rfl
            | c :: t =>
              right
              obtain ⟨rest, hrest⟩ := hpre
              have hcd : c = d := by
                have := congrArg (fun l => l.head?) hrest
                simpa using this
              subst hcd
              rcases netlocBreak_cases hdb with h | h | h
              · exact ⟨t, by rw [h]⟩
              · refine absurd ?_ hpt2
                rw [h]
                exact List.mem_cons_self _ _
              · refine absurd ?_ hpt1
                rw [h]
                exact List.mem_cons_self _ _
        -- q and f facts
        have hq1 : ¬ '#' ∈ q := by
          rw [← hqeq]
          intro hc
          exact hXfacts (hQmem.2 '#' hc)
        have hq3 : noUnsafe q := by
          intro c hc
          rw [← hqeq] at hc
          exact hu0 c (hu2mem c (hXmem.1 c (hQmem.2 c hc)))
        have hf3 : noUnsafe f := by
          intro c hc
          rw [← hfeq] at hc
          exact hu0 c (hu2mem c (hXmem.2 c hc))
        -- join facts
        have hjoin := paramsSplit_join_eq s pt
        have hjmem : ∀ c ∈ joinParams (paramsSplit s pt).1 (paramsSplit s pt).2,
            c ∈ pt := by
          rcases hjoin with hj | hj
          · rw [hj]; exact fun c hc => hc
          · intro c hc
            rw [hj]
            simp [hc]
        have hjpre : joinParams (paramsSplit s pt).1 (paramsSplit s pt).2 <+: pt := by
          rcases hjoin with hj | hj
          · rw [hj]
          · exact ⟨[';'], hj.symm⟩
        refine ⟨fun c hc => (hnfacts c hc).1, ?_, ?_, ?_, ?_, ?_, ?_, hq1, hq3,
          hf3, ?_⟩
        · rw [hneq] at hbm
          simpa using hbm
        · intro c hc
          exact hu0 c (hmemu0 c (hnfacts c hc).2)
        · rcases hjoin with hj | hj
          · rw [hj]
            rcases hpthead with h | ⟨t, h⟩
            · exact Or.inl h
            · exact Or.inr (Or.inr ⟨t, h⟩)
          · match hjc : joinParams (paramsSplit s pt).1 (paramsSplit s pt).2 with
            | [] => exact Or.inl rfl
            | c :: t2 =>
              right; right
              obtain ⟨rest, hrest⟩ := hjpre
              rw [hjc] at hrest
              rcases hpthead with hh | ⟨t3, hh⟩
              · rw [hh] at hrest
                exact absurd hrest (by simp)
              · have hcd : c = '/' := by
                  have := congrArg (fun l => l.head?) (hrest.trans hh)
                  simpa using this
                exact ⟨t2, by rw [hcd]⟩
        · intro hc
          exact hpt1 (hjmem '#' hc)
        · intro hc
          exact hpt2 (hjmem '?' hc)
        · intro c hc
          exact hu0 c (hptu c (hjmem c hc))
        · exact paramsSplit_join s pt
    · rw [if_neg htk] at hsp
      simp only [Except.ok.injEq, Prod.mk.injEq] at hsp
      obtain ⟨hseq, hneq, hpteq, hqeq, hfeq⟩ := hsp
      have hXfacts : ¬ '#' ∈ (cutAt '#'
          (splitScheme (removeUnsafe (lstripC0 url))).2).1 := cutAt_fst_not_mem _ _
      have hXmem := cutAt_mem_subset '#'
        (splitScheme (removeUnsafe (lstripC0 url))).2
      have hQmem := cutAt_mem_subset '?'
        (cutAt '#' (splitScheme (removeUnsafe (lstripC0 url))).2).1
      have hpt1 : ¬ '#' ∈ pt := by
        rw [← hpteq]
        intro hc
        exact hXfacts (hQmem.1 '#' hc)
      have hpt2 : ¬ '?' ∈ pt := by
        rw [← hpteq]
        exact cutAt_fst_not_mem _ _
      have hptu : ∀ c ∈ pt, c ∈ removeUnsafe (lstripC0 url) := by
        intro c hc
        rw [← hpteq] at hc
        exact splitScheme_snd_subset _ c (hXmem.1 c (hQmem.1 c hc))
      have hjoin := paramsSplit_join_eq s pt
      have hjmem : ∀ c ∈ joinParams (paramsSplit s pt).1 (paramsSplit s pt).2,
          c ∈ pt := by
        rcases hjoin with hj | hj
        · rw [hj]; exact fun c hc => hc
        · intro c hc
          rw [hj]
          simp [hc]
      refine ⟨?_, ?_, ?_, ?_, ?_, ?_, ?_, ?_, ?_, ?_, ?_⟩
      · rw [← hneq]
        intro c hc
        exact absurd hc (List.not_mem_nil c)
      · rw [← hneq]
        rfl
      · rw [← hneq]
        exact noUnsafe_nil
      · right; left
        rw [← hneq]
      · intro hc
        exact hpt1 (hjmem '#' hc)
      · intro hc
        exact hpt2 (hjmem '?' hc)
      · intro c hc
        exact hu0 c (hptu c (hjmem c hc))
      · rw [← hqeq]
        intro hc
        exact hXfacts (hQmem.2 '#' hc)
      · rw [← hqeq]
        intro c hc
        exact hu0 c (splitScheme_snd_subset _ c (hXmem.1 c (hQmem.2 c hc)))
      · rw [← hfeq]
        intro c hc
        exact hu0 c (splitScheme_snd_subset _ c (hXmem.2 c hc))
      · exact paramsSplit_join s pt

/-! ## Character-level facts: case folding and whitespace -/

theorem toNat_ofNat_valid {n : Nat} (h : n.isValidChar) : (Char.ofNat n).toNat = n := by
  rw [Char.ofNat, dif_pos h]
  rfl

theorem lowerChar_spec (c : Char) :
    (¬(65 ≤ c.toNat ∧ c.toNat ≤ 90) ∧ lowerChar c = c) ∨
      (65 ≤ c.toNat ∧ c.toNat ≤ 90 ∧ (lowerChar c).toNat = c.toNat + 32) := by
  rw [lowerChar, Char.toLower]
  by_cases h : 65 ≤ c.toNat ∧ c.toNat ≤ 90
  · right
    refine ⟨h.1, h.2, ?_⟩
    rw [if_pos ⟨h.1, h.2⟩]
    exact toNat_ofNat_valid (Or.inl (by omega))
  · left
    refine ⟨h, ?_⟩
    rw [if_neg ?_]
    intro hc
    exact h ⟨hc.1, hc.2⟩

theorem char_eq_of_toNat {c : Char} {n : Nat} (h : c.toNat = n) : c = Char.ofNat n := by
  rw [← h, Char.ofNat_toNat]

theorem lowerChar_preimage {c d : Char} (h : lowerChar c = d) :
    c = d ∨ (97 ≤ d.toNat ∧ d.toNat ≤ 122 ∧ c = Char.ofNat (d.toNat - 32)) := by
  rcases lowerChar_spec c with ⟨_, he⟩ | ⟨h1, h2, h3⟩
  · left
    rw [← he, h]
  · right
    rw [h] at h3
    exact ⟨by omega, by omega, char_eq_of_toNat (by omega)⟩

theorem pyIsSpace_toNat {c : Char} (h : pyIsSpace c = true) :
    c.toNat ≤ 32 ∨ 133 ≤ c.toNat := by
  simp only [pyIsSpace, Bool.or_eq_true, Bool.and_eq_true, beq_iff_eq,
    decide_eq_true_eq] at h
  omega

theorem lowerChar_space {c : Char} (h : pyIsSpace c = true) : lowerChar c = c := by
  rcases lowerChar_spec c with ⟨_, he⟩ | ⟨h1, h2, _⟩
  · exact he
  · rcases pyIsSpace_toNat h with h3 | h3 <;> omega

theorem unsafeChar_toNat {c : Char} (h : unsafeChar c = true) : c.toNat ≤ 32 := by
  simp only [unsafeChar, Bool.or_eq_true, beq_iff_eq] at h
  rcases h with (h | h) | h <;> subst h <;> decide

theorem unsafeChar_false_of_high {c : Char} (h : ¬ c.toNat ≤ 32) :
    unsafeChar c = false := by
  cases hu : unsafeChar c
  · rfl
  · exact absurd (unsafeChar_toNat hu) h

theorem prefix_split {p X Y : Str} (h : p <+: X ++ Y) :
    p <+: X ∨ ∃ q, p = X ++ q ∧ q <+: Y := by
  induction X generalizing p with
  | nil => exact Or.inr ⟨p, rfl, h⟩
  | cons x X ih =>
    match p with
    | [] => exact Or.inl List.nil_prefix
    | a :: p' =>
      rw [List.cons_append] at h
      obtain ⟨ha, hp'⟩ := List.cons_prefix_cons.mp h
      subst ha
      rcases ih hp' with h1 | ⟨q, hq1, hq2⟩
      · exact Or.inl (List.cons_prefix_cons.mpr ⟨rfl, h1⟩)
      · exact Or.inr ⟨q, by rw [hq1, List.cons_append], hq2⟩

theorem pyStrip_decomp (s : Str) :
    ∃ A C, s = A ++ pyStrip s ++ C ∧ (∀ c ∈ A, pyIsSpace c = true) ∧
      (∀ c ∈ C, pyIsSpace c = true) := by
  refine ⟨s.takeWhile pyIsSpace,
    ((s.dropWhile pyIsSpace).reverse.takeWhile pyIsSpace).reverse, ?_, ?_, ?_⟩
  · rw [pyStrip]
    have h2 : s.dropWhile pyIsSpace =
        ((s.dropWhile pyIsSpace).reverse.dropWhile pyIsSpace).reverse ++
        ((s.dropWhile pyIsSpace).reverse.takeWhile pyIsSpace).reverse := by
      have h3 : (s.dropWhile pyIsSpace).reverse.takeWhile pyIsSpace ++
          (s.dropWhile pyIsSpace).reverse.dropWhile pyIsSpace =
          (s.dropWhile pyIsSpace).reverse :=
        List.takeWhile_append_dropWhile pyIsSpace _
      calc s.dropWhile pyIsSpace
          = (s.dropWhile pyIsSpace).reverse.reverse := (List.reverse_reverse _).symm
        _ = ((s.dropWhile pyIsSpace).reverse.takeWhile pyIsSpace ++
              (s.dropWhile pyIsSpace).reverse.dropWhile pyIsSpace).reverse := by
            rw [h3]
        _ = _ := by rw [List.reverse_append]
    rw [List.append_assoc, ← h2]
    exact (List.takeWhile_append_dropWhile pyIsSpace s).symm
  · intro c hc
    exact (mem_of_mem_takeWhile hc).1
  · intro c hc
    rw [List.mem_reverse] at hc
    exact (mem_of_mem_takeWhile hc).1

theorem prefix_map_exists {f : Char → Char} {p t : Str} (h : p <+: t.map f) :
    ∃ s r, t = s ++ r ∧ s.map f = p ∧ s.length = p.length := by
  refine ⟨t.take p.length, t.drop p.length, (List.take_append_drop _ _).symm, ?_, ?_⟩
  · rw [List.map_take]
    exact (List.prefix_iff_eq_take.mp h).symm
  · have hl : p.length ≤ t.length := by
      have := h.length_le
      simpa using this
    simp [hl]

/-! ## A non-whitespace prefix survives `strip()` -/

theorem prefix_pyLower_strip {p text : Str}
    (hpre : p <+: pyLower text)
    (hpc : ∀ c ∈ p, pyIsSpace c = false) :
    p <+: pyLower (pyStrip text) := by
  rw [pyLower]
  obtain ⟨A, C, hx, hA, hC⟩ := pyStrip_decomp text
  rw [hx, pyLower, List.map_append, List.map_append] at hpre
  match p, hpc, hpre with
  | [], _, _ => exact List.nil_prefix
  | p0 :: p', hpc, hpre =>
    match hAe : A with
    | a :: A' =>
      simp only [List.map_cons, List.cons_append] at hpre
      obtain ⟨hh, _⟩ := List.cons_prefix_cons.mp hpre
      have ha : pyIsSpace a = true := hA a (List.mem_cons_self _ _)
      rw [lowerChar_space ha] at hh
      have : pyIsSpace p0 = false := hpc p0 (List.mem_cons_self _ _)
      rw [hh] at this
      rw [this] at ha
      exact absurd ha (by simp)
    | [] =>
      simp only [List.map_nil, List.nil_append] at hpre
      rcases prefix_split hpre with h1 | ⟨q, hq1, hq2⟩
      · exact h1
      · match q, hq1, hq2 with
        | [], hq1, _ =>
          rw [List.append_nil] at hq1
          rw [hq1]
        | c :: q', hq1, hq2 =>
          have hcC : c ∈ List.map lowerChar C := hq2.subset (List.mem_cons_self _ _)
          obtain ⟨c0, hc0, hlc⟩ := List.mem_map.mp hcC
          have hcs : pyIsSpace c = true := by
            rw [← hlc, lowerChar_space (hC c0 hc0)]
            exact hC c0 hc0
          have hcp : c ∈ p0 :: p' := by
            rw [hq1]
            exact List.mem_append_right _ (List.mem_cons_self _ _)
          rw [hpc c hcp] at hcs
          exact absurd hcs (by simp)

theorem dangerousScheme_strip {text : Str} (h : dangerousScheme text = true) :
    dangerousScheme (pyStrip text) = true := by
  simp only [dangerousScheme, List.any_eq_true] at h ⊢
  obtain ⟨ps, hps, hpre⟩ := h
  refine ⟨ps, hps, ?_⟩
  rw [List.isPrefixOf_iff_prefix] at hpre ⊢
  apply prefix_pyLower_strip hpre
  fin_cases hps <;> decide

/-- C4: `is_url` returns `false` on every string that begins, compared
case-insensitively, with one of the schemes `javascript:`, `data:`,
`vbscript:` or `file:`, regardless of the string's length or of any content
after the scheme. -/
theorem c4_dangerous_scheme_rejected (text : Str)
    (h : dangerousScheme text = true) : is_url text = false := by
  rw [is_url]
  split
  · rfl
  · show (if dangerousScheme (pyStrip text) then false else httpMatch (pyStrip text))
      = false
    rw [if_pos (dangerousScheme_strip h)]

/-- C4 witness: `javascript:alert(1)` is rejected. -/
theorem c4_witness : is_url "javascript:alert(1)".toList = false :=
  c4_dangerous_scheme_rejected _ (by decide)

/-! ## Characters of `urlencode` output -/

theorem joinAmp_cons_cons (f g : Str) (t : List Str) :
    joinAmp (f :: g :: t) = f ++ '&' :: joinAmp (g :: t) := by
  rw [joinAmp, joinAmp, List.intercalate, List.intercalate,
    List.intersperse_cons_cons]
  simp

theorem mem_joinAmp {c : Char} {l : List Str} (h : c ∈ joinAmp l) :
    c = '&' ∨ ∃ f ∈ l, c ∈ f := by
  induction l with
  | nil => simp [joinAmp, List.intercalate] at h
  | cons f fs ih =>
    match fs, ih with
    | [], _ =>
      refine Or.inr ⟨f, List.mem_cons_self _ _, ?_⟩
      simpa [joinAmp, List.intercalate] using h
    | g :: t, ih =>
      rw [joinAmp_cons_cons] at h
      rcases List.mem_append.mp h with h1 | h1
      · exact Or.inr ⟨f, List.mem_cons_self _ _, h1⟩
      · rcases List.mem_cons.mp h1 with h2 | h2
        · exact Or.inl h2
        · rcases ih h2 with h3 | ⟨f', hf', hc⟩
          · exact Or.inl h3
          · exact Or.inr ⟨f', List.mem_cons_of_mem _ hf', hc⟩

theorem mem_urlencode {c : Char} {d : List (Str × List Str)} (h : c ∈ urlencode d) :
    alwaysSafe c = true ∨ c = '+' ∨ c = '%' ∨ isHexDigit c = true ∨
      c = '&' ∨ c = '=' := by
  rw [urlencode] at h
  rcases mem_joinAmp h with h1 | ⟨f, hf, hc⟩
  · exact Or.inr (Or.inr (Or.inr (Or.inr (Or.inl h1))))
  · rw [encFields] at hf
    obtain ⟨kv, hkv, hfm⟩ := List.mem_flatMap.mp hf
    obtain ⟨v, hv, hfe⟩ := List.mem_map.mp hfm
    rw [← hfe, encPair] at hc
    rcases List.mem_append.mp hc with h2 | h2
    · rcases mem_quotePlus h2 with h3 | h3 | h3 | h3
      · exact Or.inl h3
      · exact Or.inr (Or.inl h3)
      · exact Or.inr (Or.inr (Or.inl h3))
      · exact Or.inr (Or.inr (Or.inr (Or.inl h3)))
    · rcases List.mem_cons.mp h2 with h3 | h3
      · exact Or.inr (Or.inr (Or.inr (Or.inr (Or.inr h3))))
      · rcases mem_quotePlus h3 with h4 | h4 | h4 | h4
        · exact Or.inl h4
        · exact Or.inr (Or.inl h4)
        · exact Or.inr (Or.inr (Or.inl h4))
        · exact Or.inr (Or.inr (Or.inr (Or.inl h4)))

theorem hash_not_mem_urlencode (d : List (Str × List Str)) :
    ¬ '#' ∈ urlencode d := by
  intro h
  rcases mem_urlencode h with h | h | h | h | h | h <;> revert h <;> decide

theorem qmark_not_mem_urlencode (d : List (Str × List Str)) :
    ¬ '?' ∈ urlencode d := by
  intro h
  rcases mem_urlencode h with h | h | h | h | h | h <;> revert h <;> decide

theorem alwaysSafe_not_unsafe {c : Char} (h : alwaysSafe c = true) :
    unsafeChar c = false := by
  cases hu : unsafeChar c
  · rfl
  · simp only [unsafeChar, Bool.or_eq_true, beq_iff_eq] at hu
    rcases hu with (h1 | h1) | h1 <;> subst h1 <;> exact absurd h (by decide)

theorem isHexDigit_not_unsafe {c : Char} (h : isHexDigit c = true) :
    unsafeChar c = false := by
  cases hu : unsafeChar c
  · rfl
  · simp only [unsafeChar, Bool.or_eq_true, beq_iff_eq] at hu
    rcases hu with (h1 | h1) | h1 <;> subst h1 <;> exact absurd h (by decide)

theorem noUnsafe_urlencode (d : List (Str × List Str)) : noUnsafe (urlencode d) := by
  intro c hc
  rcases mem_urlencode hc with h | h | h | h | h | h
  · exact alwaysSafe_not_unsafe h
  · subst h; decide
  · subst h; decide
  · exact isHexDigit_not_unsafe h
  · subst h; decide
  · subst h; decide

/-! ## Re-parsing a rebuilt URL -/

theorem parse_qs_urlencode_filter (qs : Str) (f : Str × List Str → Bool) :
    parse_qs (urlencode ((parse_qs qs).filter f)) = (parse_qs qs).filter f := by
  obtain ⟨hnd, hvl, hvs⟩ := parse_qs_good qs
  apply parse_qs_urlencode
  · have hsub : List.Sublist ((parse_qs qs).filter f) (parse_qs qs) :=
      List.filter_sublist _
    have hks : List.Sublist (keysOf ((parse_qs qs).filter f))
        (keysOf (parse_qs qs)) := hsub.map _
    exact hnd.sublist hks
  · intro kv hkv
    exact hvl kv (List.mem_of_mem_filter hkv)
  · intro kv hkv v hvv
    exact hvs kv (List.mem_of_mem_filter hkv) v hvv

theorem reparse_general {url : Str} {p : ParseResult} (hp : urlparseE url = .ok p)
    (hs : p.scheme = "http".toList ∨ p.scheme = "https".toList)
    (hnn : p.netloc ≠ [])
    (nl q : Str) (hnl1 : nl ≠ []) (hnl2 : ∀ c ∈ nl, netlocBreak c = false)
    (hnl3 : bracketMismatch nl = false) (hnl4 : noUnsafe nl)
    (hq1 : ¬ '#' ∈ q) (hq3 : noUnsafe q) :
    urlparseE (urlunparse ⟨p.scheme, nl, p.path, p.params, q, p.fragment⟩) =
      .ok ⟨p.scheme, nl, p.path, p.params, q, p.fragment⟩ := by
  obtain ⟨hn1, hn2, hn3, hj0, hj1, hj2, hj3, hq1', hq3', hf3, hps⟩ :=
    urlparseE_ok_facts hp
  have hj0' : joinParams p.path p.params = [] ∨
      ∃ t, joinParams p.path p.params = '/' :: t := by
    rcases hj0 with h | h | h
    · exact Or.inl h
    · exact absurd h hnn
    · exact Or.inr h
  exact urlparse_unparse ⟨p.scheme, nl, p.path, p.params, q, p.fragment⟩
    hs hnl1 hnl2 hnl3 hnl4 hj0' hj1 hj2 hj3 hq1 hq3 hf3 hps

/-! ## The scheme a validated URL parses to -/

theorem isAlpha_toNat {c : Char} (h : c.isAlpha = true) :
    65 ≤ c.toNat ∧ c.toNat ≤ 122 := by
  simp only [Char.isAlpha, Char.isUpper, Char.isLower, Bool.or_eq_true,
    Bool.and_eq_true, decide_eq_true_eq] at h
  rcases h with ⟨h1, h2⟩ | ⟨h1, h2⟩
  · have g1 : (65 : UInt32).toNat ≤ c.val.toNat := h1
    have g2 : c.val.toNat ≤ (90 : UInt32).toNat := h2
    exact ⟨g1, Nat.le_trans g2 (by decide)⟩
  · have g1 : (97 : UInt32).toNat ≤ c.val.toNat := h1
    have g2 : c.val.toNat ≤ (122 : UInt32).toNat := h2
    exact ⟨Nat.le_trans (by decide) g1, g2⟩

theorem isAlpha_of_toNat {c : Char}
    (h : (65 ≤ c.toNat ∧ c.toNat ≤ 90) ∨ (97 ≤ c.toNat ∧ c.toNat ≤ 122)) :
    c.isAlpha = true := by
  simp only [Char.isAlpha, Char.isUpper, Char.isLower, Bool.or_eq_true,
    Bool.and_eq_true, decide_eq_true_eq]
  rcases h with ⟨h1, h2⟩ | ⟨h1, h2⟩
  · exact Or.inl ⟨show (65 : UInt32).toNat ≤ c.val.toNat from h1,
      show c.val.toNat ≤ (90 : UInt32).toNat from h2⟩
  · exact Or.inr ⟨show (97 : UInt32).toNat ≤ c.val.toNat from h1,
      show c.val.toNat ≤ (122 : UInt32).toNat from h2⟩

theorem not_alpha_of_high {c : Char} (h : 133 ≤ c.toNat) : c.isAlpha = false := by
  cases ha : c.isAlpha
  · rfl
  · obtain ⟨_, h2⟩ := isAlpha_toNat ha
    omega

theorem lowerChar_eq_low {c d : Char} (h : lowerChar c = d) (hd : d.toNat < 97) :
    c = d := by
  rcases lowerChar_preimage h with h1 | ⟨h1, _, _⟩
  · exact h1
  · omega

theorem char_of_lower_letter {c d : Char} (h : lowerChar c = d)
    (hd : 97 ≤ d.toNat ∧ d.toNat ≤ 122) :
    c.isAlpha = true ∧ unsafeChar c = false ∧ ¬ c = ':' := by
  rcases lowerChar_preimage h with h1 | ⟨_, _, h3⟩
  · subst h1
    refine ⟨isAlpha_of_toNat (Or.inr hd), unsafeChar_false_of_high (by omega), ?_⟩
    intro hc
    subst hc
    exact absurd hd (by decide)
  · have ht : (Char.ofNat (d.toNat - 32)).toNat = d.toNat - 32 :=
      toNat_ofNat_valid (Or.inl (by omega))
    subst h3
    refine ⟨isAlpha_of_toNat (Or.inl (by omega)),
      unsafeChar_false_of_high (by omega), ?_⟩
    intro hc
    rw [hc] at ht
    have h58 : ':'.toNat = 58 := by decide
    omega

theorem map_lower_inv_append {s P Q : Str} (h : s.map lowerChar = P ++ Q) :
    ∃ s1 s2, s = s1 ++ s2 ∧ s1.map lowerChar = P ∧ s2.map lowerChar = Q := by
  refine ⟨s.take P.length, s.drop P.length, (List.take_append_drop _ _).symm,
    ?_, ?_⟩
  · rw [List.map_take, h, List.take_left]
  · rw [List.map_drop, h, List.drop_left]

theorem map_lower_inv_cons {s : Str} {c : Char} {r : Str}
    (h : s.map lowerChar = c :: r) :
    ∃ c0 s', s = c0 :: s' ∧ lowerChar c0 = c ∧ s'.map lowerChar = r := by
  match s, h with
  | [], h => exact absurd h (by simp)
  | a :: s', h =>
    simp only [List.map_cons, List.cons.injEq] at h
    exact ⟨a, s', rfl, h.1, h.2⟩

theorem dropWhile_append_head {p : Char → Bool} (A : Str) (b : Char) (B' : Str)
    (hb : p b = false) :
    (A ++ b :: B').dropWhile p = A.dropWhile p ++ b :: B' := by
  induction A with
  | nil => simp [List.dropWhile_cons, hb]
  | cons a A ih =>
    rw [List.cons_append, List.dropWhile_cons, List.dropWhile_cons]
    by_cases ha : p a = true
    · rw [if_pos ha, if_pos ha, ih]
    · rw [if_neg ha, if_neg ha, List.cons_append]

theorem splitScheme_cons_letters {pre : Str} (rest : Str)
    (hpre : pre ≠ []) (hcol : ¬ ':' ∈ pre)
    (halpha : ∀ c ∈ pre, c.isAlpha = true) :
    splitScheme (pre ++ ':' :: rest) = (pyLower pre, rest) := by
  rw [splitScheme, splitFirst_append hcol rest]
  match pre, hpre, hcol, halpha with
  | c0 :: pre', _, hcol, halpha =>
    have h1 : c0.isAlpha = true := halpha c0 (List.mem_cons_self _ _)
    have h2 : (c0 :: pre').all schemeChar = true := by
      rw [List.all_eq_true]
      intro c hc
      have hca := halpha c hc
      simp [schemeChar, Char.isAlphanum, hca]
    simp only [h1, h2, Bool.and_self, if_true]

theorem splitScheme_head_not_alpha {w : Char} (t : Str)
    (hw : w.isAlpha = false) (hwc : ¬ w = ':') :
    splitScheme (w :: t) = ([], w :: t) := by
  rw [splitScheme]
  match hsp : splitFirst ':' (w :: t) with
  | none => rfl
  | some (pre, post) =>
    obtain ⟨hu2, hnm⟩ := splitFirst_eq_some hsp
    match pre, hu2, hnm with
    | [], hu2, _ =>
      simp only [List.nil_append, List.cons.injEq] at hu2
      exact absurd hu2.1 hwc
    | c0 :: pre', hu2, hnm =>
      simp only [List.cons_append, List.cons.injEq] at hu2
      rw [← hu2.1]
      show (if (w.isAlpha && (w :: pre').all schemeChar) = true
          then (pyLower (w :: pre'), post) else ([], w :: t)) = ([], w :: t)
      rw [hw]
      simp

theorem is_url_httpMatch {x : Str} (h : is_url x = true) :
    httpMatch (pyStrip x) = true := by
  rw [is_url] at h
  split at h
  · exact absurd h (by simp)
  · change (if dangerousScheme (pyStrip x) = true then false
      else httpMatch (pyStrip x)) = true at h
    by_cases hd : dangerousScheme (pyStrip x) = true
    · rw [if_pos hd] at h
      exact absurd h (by simp)
    · rw [if_neg hd] at h
      exact h

theorem urlparseE_scheme_core {x low : Str} {p : ParseResult}
    (hp : urlparseE x = .ok p) (hnn : p.netloc ≠ [])
    (hlow : low = "http".toList ∨ low = "https".toList)
    (hpre : (low ++ [':', '/', '/']) <+: pyLower (pyStrip x)) :
    p.scheme = low := by
  rw [pyLower] at hpre
  obtain ⟨s, r, hSr, hsm, _⟩ := prefix_map_exists hpre
  obtain ⟨s1, s2, hs12, hm1, hm2⟩ := map_lower_inv_append hsm
  obtain ⟨ca, s2a, h2a, hla, hra⟩ := map_lower_inv_cons hm2
  obtain ⟨cb, s2b, h2b, hlb, hrb⟩ := map_lower_inv_cons hra
  obtain ⟨cc, s2c, h2c, hlc, hrc⟩ := map_lower_inv_cons hrb
  have hs2c : s2c = [] := List.map_eq_nil_iff.mp hrc
  have hca : ca = ':' := lowerChar_eq_low hla (by decide)
  have hcb : cb = '/' := lowerChar_eq_low hlb (by decide)
  have hcc : cc = '/' := lowerChar_eq_low hlc (by decide)
  have hs2 : s2 = ':' :: '/' :: '/' :: [] := by
    rw [h2a, hca, h2b, hcb, h2c, hcc, hs2c]
  have hlowchars : ∀ d ∈ low, 97 ≤ d.toNat ∧ d.toNat ≤ 122 := by
    rcases hlow with h | h <;> subst h <;> decide
  have hs1f : ∀ c ∈ s1, c.isAlpha = true ∧ unsafeChar c = false ∧ ¬ c = ':' := by
    intro c hc
    have hmem : lowerChar c ∈ low := by
      rw [← hm1]
      exact List.mem_map_of_mem _ hc
    exact char_of_lower_letter rfl (hlowchars _ hmem)
  have hs1ne : s1 ≠ [] := by
    intro h
    rw [h] at hm1
    rcases hlow with hl | hl <;> rw [hl] at hm1 <;> exact absurd hm1 (by decide)
  obtain ⟨c1, s1', hc1s⟩ := List.exists_cons_of_ne_nil hs1ne
  obtain ⟨A, C, hx, hA, hC⟩ := pyStrip_decomp x
  have hxfull : x = A ++ c1 :: (s1' ++ ':' :: '/' :: '/' :: (r ++ C)) := by
    rw [hx, hSr, hs12, hs2, hc1s]
    simp
  have hc1a : c1.isAlpha = true :=
    (hs1f c1 (by rw [hc1s]; exact List.mem_cons_self _ _)).1
  have hc1n : c0OrSpace c1 = false := by
    have h65 := (isAlpha_toNat hc1a).1
    simp only [c0OrSpace, decide_eq_false_iff_not]
    omega
  have hlstrip : lstripC0 x =
      (A.dropWhile c0OrSpace) ++ c1 :: (s1' ++ ':' :: '/' :: '/' :: (r ++ C)) := by
    rw [lstripC0]
    conv_lhs => rw [hxfull]
    exact dropWhile_append_head _ _ _ hc1n
  rw [urlparseE] at hp
  match hsp : urlsplitE x with
  | .error e =>
    rw [hsp] at hp
    exact absurd hp (by simp)
  | .ok (s0, n, pt, q, f) =>
    rw [hsp] at hp
    simp only [Except.ok.injEq] at hp
    subst hp
    show s0 = low
    have hnn' : n ≠ [] := hnn
    rw [urlsplitE] at hsp
    simp only [] at hsp
    rcases dropWhile_head_cases c0OrSpace A with hA' | ⟨w, A'', hA', hw0⟩
    · -- no residual whitespace before the scheme: the scheme is read off
      have hu0 : removeUnsafe (lstripC0 x) =
          s1 ++ ':' :: '/' :: '/' :: removeUnsafe (r ++ C) := by
        rw [hlstrip, hA', List.nil_append, ← List.cons_append, ← hc1s,
          removeUnsafe, List.filter_append]
        have hfs1 : List.filter (fun c => !unsafeChar c) s1 = s1 := by
          rw [List.filter_eq_self]
          intro a ha
          rw [(hs1f a ha).2.1]
          rfl
        have k1 : (!unsafeChar ':') = true := by decide
        have k2 : (!unsafeChar '/') = true := by decide
        rw [hfs1, List.filter_cons, k1, List.filter_cons, k2, List.filter_cons,
          k2]
        simp [removeUnsafe]
      have h1 : (splitScheme (removeUnsafe (lstripC0 x))).1 = low := by
        rw [hu0, splitScheme_cons_letters _ hs1ne
          (fun hc => ((hs1f ':' hc).2.2) rfl) (fun c hc => (hs1f c hc).1)]
        simp only [pyLower, hm1]
      have h2 : (splitScheme (removeUnsafe (lstripC0 x))).2 =
          '/' :: '/' :: removeUnsafe (r ++ C) := by
        rw [hu0, splitScheme_cons_letters _ hs1ne
          (fun hc => ((hs1f ':' hc).2.2) rfl) (fun c hc => (hs1f c hc).1)]
      rw [h1, h2] at hsp
      have htk : (('/' :: '/' :: removeUnsafe (r ++ C)).take 2 : Str) =
          ['/', '/'] := rfl
      rw [if_pos htk] at hsp
      split at hsp
      · exact absurd hsp (by simp)
      · simp only [Except.ok.injEq, Prod.mk.injEq] at hsp
        exact hsp.1.symm
    · -- a non-C0 whitespace character survives the lstrip: no scheme, no netloc
      have hwmem : w ∈ A := by
        have hmem : w ∈ A.dropWhile c0OrSpace := by
          rw [hA']
          exact List.mem_cons_self _ _
        exact (List.dropWhile_sublist c0OrSpace).subset hmem
      have hwS : pyIsSpace w = true := hA w hwmem
      have hwHi : 133 ≤ w.toNat := by
        rcases pyIsSpace_toNat hwS with h | h
        · simp only [c0OrSpace, decide_eq_false_iff_not] at hw0
          omega
        · exact h
      have hwu : unsafeChar w = false := unsafeChar_false_of_high (by omega)
      have hwa : w.isAlpha = false := not_alpha_of_high hwHi
      have hwc : ¬ w = ':' := by
        intro h
        rw [h] at hwHi
        revert hwHi
        decide
      have hwsl : ¬ w = '/' := by
        intro h
        rw [h] at hwHi
        revert hwHi
        decide
      have hu0 : removeUnsafe (lstripC0 x) =
          w :: removeUnsafe (A'' ++ c1 ::
            (s1' ++ ':' :: '/' :: '/' :: (r ++ C))) := by
        rw [hlstrip, hA', List.cons_append, removeUnsafe, List.filter_cons]
        have kw : (!unsafeChar w) = true := by rw [hwu]; rfl
        rw [kw]
        simp [removeUnsafe]
      have h1 : (splitScheme (removeUnsafe (lstripC0 x))).1 = [] := by
        rw [hu0, splitScheme_head_not_alpha _ hwa hwc]
      have h2 : (splitScheme (removeUnsafe (lstripC0 x))).2 =
          w :: removeUnsafe (A'' ++ c1 ::
            (s1' ++ ':' :: '/' :: '/' :: (r ++ C))) := by
        rw [hu0, splitScheme_head_not_alpha _ hwa hwc]
      rw [h1, h2] at hsp
      have htk : ¬ ((w :: removeUnsafe (A'' ++ c1 ::
          (s1' ++ ':' :: '/' :: '/' :: (r ++ C)))).take 2 = ['/', '/']) := by
        intro h
        have h' : w :: (removeUnsafe (A'' ++ c1 ::
            (s1' ++ ':' :: '/' :: '/' :: (r ++ C)))).take 1 = ['/', '/'] := h
        simp only [List.cons.injEq] at h'
        exact hwsl h'.1
      rw [if_neg htk] at hsp
      simp only [Except.ok.injEq, Prod.mk.injEq] at hsp
      exact absurd hsp.2.1.symm hnn'

theorem validated_parse {x : Str} (h1 : is_url x = true)
    (h2 : is_supported_platform x = true) :
    ∃ p, urlparseE x = .ok p ∧
      (p.scheme = "http".toList ∨ p.scheme = "https".toList) ∧ p.netloc ≠ [] := by
  rw [is_supported_platform] at h2
  match hp : urlparseE x with
  | .error e =>
    rw [hp] at h2
    simp at h2
  | .ok p =>
    rw [hp] at h2
    simp only [] at h2
    have hnn : p.netloc ≠ [] := by
      intro hn
      rw [hn] at h2
      exact absurd h2 (by decide)
    have hm : httpMatch (pyStrip x) = true := is_url_httpMatch h1
    rw [httpMatch] at hm
    by_cases h8 : ("https://".toList.isPrefixOf (pyLower (pyStrip x))) = true
    · refine ⟨p, rfl, Or.inr ?_, hnn⟩
      apply urlparseE_scheme_core hp hnn (Or.inr rfl)
      have he : ("https".toList ++ [':', '/', '/'] : Str) = "https://".toList := by
        decide
      rw [he]
      exact List.isPrefixOf_iff_prefix.mp h8
    · rw [if_neg h8] at hm
      by_cases h7 : ("http://".toList.isPrefixOf (pyLower (pyStrip x))) = true
      · refine ⟨p, rfl, Or.inl ?_, hnn⟩
        apply urlparseE_scheme_core hp hnn (Or.inl rfl)
        have he : ("http".toList ++ [':', '/', '/'] : Str) = "http://".toList := by
          decide
        rw [he]
        exact List.isPrefixOf_iff_prefix.mp h7
      · rw [if_neg h7] at hm
        exact absurd hm (by simp)

/-! ## The shape of `clean_url` and `convert_twitter_to_fxtwitter` outputs -/

/-- The filter `clean_url` keeps a query parameter by. -/
def keepF (kv : Str × List Str) : Bool :=
  !(tracking_params.contains (pyLower kv.1))

/-- The filter `clean_url` removes a query parameter by. -/
def dropF (kv : Str × List Str) : Bool :=
  tracking_params.contains (pyLower kv.1)

/-- The record `clean_url` rebuilds from a successful parse. -/
def cleanedOf (p : ParseResult) : ParseResult :=
  ⟨p.scheme, p.netloc, p.path, p.params,
    urlencode ((parse_qs p.query).filter keepF), p.fragment⟩

/-- The removed-parameter list `clean_url` reports. -/
def removedOf (q : Str) : List Str :=
  ((parse_qs q).filter dropF).map (fun kv => kv.1)

theorem clean_url_eq {url : Str} {p : ParseResult}
    (hp : urlparseE url = .ok p)
    (hs : p.scheme = "http".toList ∨ p.scheme = "https".toList) :
    clean_url url = (urlunparse (cleanedOf p), removedOf p.query) := by
  rw [clean_url, hp]
  show (if p.scheme = "http".toList ∨ p.scheme = "https".toList
      then _ else _) = _
  rw [if_pos hs]
  rfl

theorem clean_url_skip {url : Str} {p : ParseResult}
    (hp : urlparseE url = .ok p)
    (hs : ¬ (p.scheme = "http".toList ∨ p.scheme = "https".toList)) :
    clean_url url = (url, []) := by
  rw [clean_url, hp]
  show (if p.scheme = "http".toList ∨ p.scheme = "https".toList
      then _ else _) = _
  rw [if_neg hs]

theorem clean_url_reparse {url : Str} {p : ParseResult}
    (hp : urlparseE url = .ok p)
    (hs : p.scheme = "http".toList ∨ p.scheme = "https".toList)
    (hnn : p.netloc ≠ []) :
    urlparseE (clean_url url).1 = .ok (cleanedOf p) := by
  rw [clean_url_eq hp hs]
  obtain ⟨hn1, hn2, hn3, _, _, _, _, _, _, _, _⟩ := urlparseE_ok_facts hp
  exact reparse_general hp hs hnn p.netloc _ hnn hn1 hn2 hn3
    (hash_not_mem_urlencode _) (noUnsafe_urlencode _)

/-- A second `clean_url` over a URL whose query is already the re-encoding of
a kept-parameter dict removes nothing and rebuilds the same URL. -/
theorem clean_url_second {u2 q0 : Str} {R : ParseResult}
    (hp2 : urlparseE u2 = .ok R)
    (hs : R.scheme = "http".toList ∨ R.scheme = "https".toList)
    (hq : R.query = urlencode ((parse_qs q0).filter keepF)) :
    clean_url u2 = (urlunparse R, []) := by
  rw [clean_url_eq hp2 hs]
  have hpq : parse_qs R.query = (parse_qs q0).filter keepF := by
    rw [hq]
    exact parse_qs_urlencode_filter q0 _
  have hkept : (parse_qs R.query).filter keepF = (parse_qs q0).filter keepF := by
    rw [hpq]
    apply List.filter_eq_self.mpr
    intro kv hkv
    exact List.of_mem_filter hkv
  have hrem : removedOf R.query = [] := by
    rw [removedOf, hpq]
    have : ((parse_qs q0).filter keepF).filter dropF = [] := by
      apply List.filter_eq_nil_iff.mpr
      intro kv hkv
      have hk : keepF kv = true := List.of_mem_filter hkv
      rw [keepF, Bool.not_eq_true'] at hk
      rw [dropF, hk]
      simp
    rw [this, List.map_nil]
  have hrec : cleanedOf R = R := by
    rw [cleanedOf, hkept, ← hq]
  rw [hrem, hrec]

theorem convert_eq_rewrite {url : Str} {p : ParseResult}
    (hp : urlparseE url = .ok p)
    (hd : (normDomain p.netloc = "twitter.com".toList ∨
        normDomain p.netloc = "x.com".toList ∨
        normDomain p.netloc = "mobile.twitter.com".toList) ∧
      isSubstr "/status/".toList p.path = true) :
    convert_twitter_to_fxtwitter url =
      (urlunparse ⟨p.scheme, "fxtwitter.com".toList, p.path, p.params, p.query,
        p.fragment⟩, true) := by
  rw [convert_twitter_to_fxtwitter, hp]
  show (if (normDomain p.netloc = "twitter.com".toList ∨
      normDomain p.netloc = "x.com".toList ∨
      normDomain p.netloc = "mobile.twitter.com".toList) ∧
      isSubstr "/status/".toList p.path = true then _ else _) = _
  rw [if_pos hd]

theorem convert_eq_norewrite {url : Str} {p : ParseResult}
    (hp : urlparseE url = .ok p)
    (hd : ¬ ((normDomain p.netloc = "twitter.com".toList ∨
        normDomain p.netloc = "x.com".toList ∨
        normDomain p.netloc = "mobile.twitter.com".toList) ∧
      isSubstr "/status/".toList p.path = true)) :
    convert_twitter_to_fxtwitter url = (url, false) := by
  rw [convert_twitter_to_fxtwitter, hp]
  show (if (normDomain p.netloc = "twitter.com".toList ∨
      normDomain p.netloc = "x.com".toList ∨
      normDomain p.netloc = "mobile.twitter.com".toList) ∧
      isSubstr "/status/".toList p.path = true then _ else _) = _
  rw [if_neg hd]

theorem convert_reparse {url : Str} {p : ParseResult}
    (hp : urlparseE url = .ok p)
    (hs : p.scheme = "http".toList ∨ p.scheme = "https".toList)
    (hnn : p.netloc ≠ [])
    (hd : (normDomain p.netloc = "twitter.com".toList ∨
        normDomain p.netloc = "x.com".toList ∨
        normDomain p.netloc = "mobile.twitter.com".toList) ∧
      isSubstr "/status/".toList p.path = true) :
    urlparseE (convert_twitter_to_fxtwitter url).1 =
      .ok ⟨p.scheme, "fxtwitter.com".toList, p.path, p.params, p.query,
        p.fragment⟩ := by
  rw [convert_eq_rewrite hp hd]
  obtain ⟨_, _, _, _, _, _, _, hq1, hq3, _, _⟩ := urlparseE_ok_facts hp
  exact reparse_general hp hs hnn "fxtwitter.com".toList p.query
    (by decide) (by decide) (by decide) (by unfold noUnsafe; decide) hq1 hq3

theorem normalize_some {x : Str} {s : ChangeSummary} (h : normalize x = some s) :
    (is_url x && is_supported_platform x) = true ∧
      s = ⟨(convert_twitter_to_fxtwitter (clean_url x).1).1,
        (clean_url x).2, (convert_twitter_to_fxtwitter (clean_url x).1).2⟩ := by
  rw [normalize] at h
  by_cases hc : (is_url x && is_supported_platform x) = true
  · rw [if_pos hc] at h
    simp only [Option.some.injEq] at h
    exact ⟨hc, h.symm⟩
  · rw [if_neg hc] at h
    exact absurd h (by simp)

theorem normalize_eq {x : Str}
    (hok : (is_url x && is_supported_platform x) = true) :
    normalize x = some ⟨(convert_twitter_to_fxtwitter (clean_url x).1).1,
      (clean_url x).2, (convert_twitter_to_fxtwitter (clean_url x).1).2⟩ := by
  rw [normalize, if_pos hok]

/-! ## C3: behaviour of a second run over the pipeline's own output -/

/-- C3 (amended): when the pipeline accepts an input and then also accepts
its own output, the second run changes nothing: it removes no parameters,
performs no domain rewrite, and returns the same final URL.  (A second run
can instead be `Rejected` outright: percent re-encoding can push the output
over the 2048-character bound, see the counterexample.) -/
theorem c3_second_run_no_change (x : Str) (s s' : ChangeSummary)
    (h1 : normalize x = some s) (h2 : normalize s.finalURL = some s') :
    s' = ⟨s.finalURL, [], false⟩ := by
  obtain ⟨hok1, hs1⟩ := normalize_some h1
  rw [Bool.and_eq_true] at hok1
  obtain ⟨p, hp, hsch, hnn⟩ := validated_parse hok1.1 hok1.2
  have hrp1 : urlparseE (clean_url x).1 = .ok (cleanedOf p) :=
    clean_url_reparse hp hsch hnn
  by_cases hcond : (normDomain (cleanedOf p).netloc = "twitter.com".toList ∨
      normDomain (cleanedOf p).netloc = "x.com".toList ∨
      normDomain (cleanedOf p).netloc = "mobile.twitter.com".toList) ∧
      isSubstr "/status/".toList (cleanedOf p).path = true
  case pos =>
    have hcv := convert_eq_rewrite hrp1 hcond
    have hrp2 : urlparseE (convert_twitter_to_fxtwitter (clean_url x).1).1 =
        .ok ⟨p.scheme, "fxtwitter.com".toList, p.path, p.params,
          urlencode ((parse_qs p.query).filter keepF), p.fragment⟩ :=
      convert_reparse hrp1 hsch hnn hcond
    have hfin : s.finalURL = (convert_twitter_to_fxtwitter (clean_url x).1).1 := by
      rw [hs1]
    have hp2 : urlparseE s.finalURL =
        .ok ⟨p.scheme, "fxtwitter.com".toList, p.path, p.params,
          urlencode ((parse_qs p.query).filter keepF), p.fragment⟩ := by
      rw [hfin]
      exact hrp2
    have hcl2 : clean_url s.finalURL =
        (urlunparse ⟨p.scheme, "fxtwitter.com".toList, p.path, p.params,
          urlencode ((parse_qs p.query).filter keepF), p.fragment⟩, []) :=
      clean_url_second hp2 hsch rfl
    have hfin2 : s.finalURL = urlunparse ⟨p.scheme, "fxtwitter.com".toList,
        p.path, p.params, urlencode ((parse_qs p.query).filter keepF),
        p.fragment⟩ := by
      rw [hfin, hcv]
      rfl
    have hp3 : urlparseE (urlunparse ⟨p.scheme, "fxtwitter.com".toList, p.path,
        p.params, urlencode ((parse_qs p.query).filter keepF), p.fragment⟩) =
        .ok ⟨p.scheme, "fxtwitter.com".toList, p.path, p.params,
          urlencode ((parse_qs p.query).filter keepF), p.fragment⟩ := by
      rw [← hfin2]
      exact hp2
    have hcv2 : convert_twitter_to_fxtwitter (clean_url s.finalURL).1 =
        ((clean_url s.finalURL).1, false) := by
      rw [hcl2]
      refine convert_eq_norewrite hp3 ?_
      intro hcc
      have hfx : normDomain "fxtwitter.com".toList = "twitter.com".toList ∨
          normDomain "fxtwitter.com".toList = "x.com".toList ∨
          normDomain "fxtwitter.com".toList = "mobile.twitter.com".toList :=
        hcc.1
      revert hfx
      decide
    obtain ⟨_, hs2⟩ := normalize_some h2
    rw [hs2, hcv2, hcl2, ← hfin2]
  case neg =>
    have hcv := convert_eq_norewrite hrp1 hcond
    have hfin : s.finalURL = (clean_url x).1 := by
      rw [hs1]
      show (convert_twitter_to_fxtwitter (clean_url x).1).1 = (clean_url x).1
      rw [hcv]
    have hp2 : urlparseE s.finalURL = .ok (cleanedOf p) := by
      rw [hfin]
      exact hrp1
    have hcl2 : clean_url s.finalURL = (urlunparse (cleanedOf p), []) :=
      clean_url_second hp2 hsch rfl
    have hfin2 : urlunparse (cleanedOf p) = s.finalURL := by
      rw [hfin, clean_url_eq hp hsch]
    have hp3 : urlparseE (urlunparse (cleanedOf p)) = .ok (cleanedOf p) := by
      rw [hfin2]
      exact hp2
    have hcv2 : convert_twitter_to_fxtwitter (clean_url s.finalURL).1 =
        ((clean_url s.finalURL).1, false) := by
      rw [hcl2]
      exact convert_eq_norewrite hp3 hcond
    obtain ⟨_, hs2⟩ := normalize_some h2
    rw [hs2, hcv2, hcl2, hfin2]

/-- C3 witness: `https://x.com/status/5?s=1` is accepted and rewritten; its
output `https://fxtwitter.com/status/5` is accepted again, and the second
run removes nothing, rewrites nothing, and keeps the URL. -/
theorem c3_witness :
    normalize "https://x.com/status/5?s=1".toList =
      some ⟨"https://fxtwitter.com/status/5".toList, ["s".toList], true⟩ ∧
    normalize "https://fxtwitter.com/status/5".toList =
      some ⟨"https://fxtwitter.com/status/5".toList, [], false⟩ ∧
    (⟨"https://fxtwitter.com/status/5".toList, [], false⟩ : ChangeSummary) =
      ⟨(⟨"https://fxtwitter.com/status/5".toList, ["s".toList], true⟩ :
          ChangeSummary).finalURL, [], false⟩ := by
  refine ⟨?_, ?_, ?_⟩
  · rfl
  · rfl
  · exact c3_second_run_no_change "https://x.com/status/5?s=1".toList
      ⟨"https://fxtwitter.com/status/5".toList, ["s".toList], true⟩
      ⟨"https://fxtwitter.com/status/5".toList, [], false⟩ (by rfl) (by rfl)

set_option maxRecDepth 4096

/-- An input whose single kept query value holds 226 three-byte characters:
the re-encoded output (each `€` becomes `%E2%82%AC`) is 2052 characters. -/
def c3x : Str :=
  "https://x.com/p?a=".toList ++ List.replicate 226 '€' ++
    "&utm_source=f".toList

/-- The query component of `c3x`. -/
def c3q : Str :=
  "a=".toList ++ List.replicate 226 '€' ++ "&utm_source=f".toList

/-- What `urlparse` returns on `c3x`. -/
def c3p : ParseResult :=
  ⟨"https".toList, "x.com".toList, "/p".toList, [], c3q, []⟩

theorem joinAmp_single (f : Str) : joinAmp [f] = f := by
  simp [joinAmp, List.intercalate]

theorem option_map_some {α β : Type} (f : α → β) (a : α) :
    (some a).map f = some (f a) := rfl

theorem finalURL_mk (a : Str) (b : List Str) (c : Bool) :
    ChangeSummary.finalURL ⟨a, b, c⟩ = a := rfl

theorem quotePlus_replicate_length (n : Nat) (c : Char) :
    (quotePlus (List.replicate n c)).length = n * (quotePlusChar c).length := by
  induction n with
  | zero => simp [quotePlus]
  | succ n ih =>
    rw [List.replicate_succ, quotePlus, List.flatMap_cons, List.length_append]
    rw [quotePlus] at ih
    rw [ih]
    ring

/-- C3 counterexample: `c3x` is accepted and cleaned (removing
`utm_source`), but percent re-encoding expands its kept value to a
2052-character output that fails `is_url`'s 2048-character bound, so the
second run is `Rejected` (`none`) rather than a no-change summary. -/
theorem c3_cex :
    (normalize c3x).map ChangeSummary.removedParams =
      some ["utm_source".toList] ∧
    (normalize c3x).map ChangeSummary.finalURL =
      some (urlunparse (cleanedOf c3p)) ∧
    normalize (urlunparse (cleanedOf c3p)) = none := by
  have hp0 : urlparseE c3x = .ok c3p := by rfl
  have hsch : c3p.scheme = "http".toList ∨ c3p.scheme = "https".toList :=
    Or.inr rfl
  have hnn : c3p.netloc ≠ [] := by
    intro h
    exact absurd (congrArg List.length h) (by decide)
  have hok : (is_url c3x && is_supported_platform c3x) = true := by rfl
  have hnorm1 := normalize_eq hok
  have hcl := clean_url_eq hp0 hsch
  have hkept : (parse_qs c3p.query).filter keepF =
      [("a".toList, [List.replicate 226 '€'])] := by rfl
  have hrem : removedOf c3p.query = ["utm_source".toList] := by rfl
  have hrp1 : urlparseE (clean_url c3x).1 = .ok (cleanedOf c3p) :=
    clean_url_reparse hp0 hsch hnn
  have hcond : ¬ ((normDomain (cleanedOf c3p).netloc = "twitter.com".toList ∨
      normDomain (cleanedOf c3p).netloc = "x.com".toList ∨
      normDomain (cleanedOf c3p).netloc = "mobile.twitter.com".toList) ∧
      isSubstr "/status/".toList (cleanedOf c3p).path = true) := by
    intro hcc
    have h2 : isSubstr "/status/".toList "/p".toList = true := hcc.2
    revert h2
    decide
  have hcv : convert_twitter_to_fxtwitter (clean_url c3x).1 =
      ((clean_url c3x).1, false) := convert_eq_norewrite hrp1 hcond
  have hser : urlunparse (cleanedOf c3p) =
      "https://x.com/p".toList ++ '?' ::
        urlencode ((parse_qs c3p.query).filter keepF) := by rfl
  have hQ : urlencode ((parse_qs c3p.query).filter keepF) =
      quotePlus "a".toList ++ '=' :: quotePlus (List.replicate 226 '€') := by
    rw [hkept, urlencode, encFields]
    simp only [List.flatMap_cons, List.flatMap_nil, List.map_cons,
      List.map_nil, List.append_nil]
    rw [joinAmp_single]
    rfl
  have hQlen : (urlencode ((parse_qs c3p.query).filter keepF)).length = 2036 := by
    rw [hQ, List.length_append, List.length_cons, quotePlus_replicate_length]
    decide
  have hlen : (urlunparse (cleanedOf c3p)).length = 2052 := by
    rw [hser, List.length_append, List.length_cons, hQlen]
    decide
  have hiu2 : is_url (urlunparse (cleanedOf c3p)) = false := by
    rw [is_url, hlen]
    rfl
  have hnorm2 : normalize (urlunparse (cleanedOf c3p)) = none := by
    rw [normalize, hiu2]
    rfl
  refine ⟨?_, ?_, hnorm2⟩
  · rw [hnorm1]
    show some (clean_url c3x).2 = some ["utm_source".toList]
    rw [hcl]
    show some (removedOf c3p.query) = some ["utm_source".toList]
    rw [hrem]
  · conv_lhs => rw [hnorm1]
    conv_lhs => rw [option_map_some]
    conv_lhs => rw [finalURL_mk]
    conv_lhs => rw [hcv]
    conv_lhs => rw [show ((clean_url c3x).1, false).1 = (clean_url c3x).1
      from rfl]
    conv_lhs => rw [hcl]

/-! ## C8: parse failures are contained -/

/-- C8: an internal parse failure never escapes: `clean_url` returns the
original URL with an empty removed list, and the rewriter returns its input
with `wasRewritten = false`. -/
theorem c8_parse_failure_contained (url : Str) (e : Unit)
    (h : urlparseE url = .error e) :
    clean_url url = (url, []) ∧
      convert_twitter_to_fxtwitter url = (url, false) := by
  constructor
  · rw [clean_url, h]
  · rw [convert_twitter_to_fxtwitter, h]

/-- C8 witness: the mismatched IPv6 bracket raises inside `urlparse`, and
both stages return their input unchanged. -/
theorem c8_witness :
    clean_url "http://[::1/x".toList = ("http://[::1/x".toList, []) ∧
      convert_twitter_to_fxtwitter "http://[::1/x".toList =
        ("http://[::1/x".toList, false) :=
  c8_parse_failure_contained _ () (by rfl)

/-! ## C9: the worked Twitter example -/

/-- C9 counterexample: `t` is also in the tracking set (`'t', 's'` under the
Twitter/X group), so the pipeline removes `t`, `s` and `utm_source` — not
only `s` and `utm_source`. -/
theorem c9_cex :
    (normalize
        "https://x.com/user/status/123?t=abc&s=20&utm_source=t.co".toList).map
      ChangeSummary.removedParams =
      some ["t".toList, "s".toList, "utm_source".toList] := by rfl

/-- C9 (amended): on the claimed input the pipeline removes exactly `t`,
`s` and `utm_source`, rewrites the host to `fxtwitter.com`, and leaves the
path (with the status id) unchanged. -/
theorem c9_pipeline_example :
    normalize "https://x.com/user/status/123?t=abc&s=20&utm_source=t.co".toList =
      some ⟨"https://fxtwitter.com/user/status/123".toList,
        ["t".toList, "s".toList, "utm_source".toList], true⟩ := by rfl

/-! ## C10: empty-valued occurrences are dropped silently -/

theorem parse_qsl_joinAmp (fields : List Str)
    (hf : ∀ f ∈ fields, ¬ '&' ∈ f ∧ f ≠ []) :
    parse_qsl (joinAmp fields) = fields.filterMap parseField := by
  by_cases hd : fields = []
  · subst hd
    rfl
  · have hsplit : (joinAmp fields).splitOn '&' = fields := by
      rw [joinAmp]
      exact List.splitOn_intercalate _ '&' (fun l hl => (hf l hl).1) hd
    have hne : joinAmp fields ≠ [] := by
      intro hcon
      have hemp : fields = [[]] := by
        rw [← hsplit, hcon]
        rfl
      have h0 : ([] : Str) ∈ fields := by
        rw [hemp]
        simp
      exact (hf [] h0).2 rfl
    rw [parse_qsl, if_neg hne, hsplit]

/-- C10: a query field with an empty value (`k=`) is skipped by `parse_qs`
(default `keep_blank_values=False`), so `clean_url` silently drops such an
occurrence from the rebuilt query even for non-tracking keys, and does not
report it in the removed list. -/
theorem c10_empty_value_dropped (pre post : List Str) (k : Str)
    (hpre : ∀ f ∈ pre, ¬ '&' ∈ f ∧ f ≠ [])
    (hpost : ∀ f ∈ post, ¬ '&' ∈ f ∧ f ≠ [])
    (hk : ¬ '&' ∈ k) (hke : ¬ '=' ∈ k) :
    parse_qs (joinAmp (pre ++ (k ++ ['=']) :: post)) =
      parse_qs (joinAmp (pre ++ post)) ∧
    clean_url "https://example.com/a?x=&y=2".toList =
      ("https://example.com/a?y=2".toList, []) := by
  refine ⟨?_, by rfl⟩
  have hkfield : ¬ '&' ∈ k ++ ['='] ∧ (k ++ ['='] : Str) ≠ [] := by
    constructor
    · intro hmem
      rcases List.mem_append.mp hmem with h2 | h2
      · exact hk h2
      · simp at h2
    · simp
  have hfL : ∀ f ∈ pre ++ (k ++ ['=']) :: post, ¬ '&' ∈ f ∧ f ≠ [] := by
    intro f hf
    rcases List.mem_append.mp hf with h | h
    · exact hpre f h
    · rcases List.mem_cons.mp h with h | h
      · rw [h]
        exact hkfield
      · exact hpost f h
  have hfR : ∀ f ∈ pre ++ post, ¬ '&' ∈ f ∧ f ≠ [] := by
    intro f hf
    rcases List.mem_append.mp hf with h | h
    · exact hpre f h
    · exact hpost f h
  have hfield : parseField (k ++ ['=']) = none := by
    rw [parseField, if_neg (by simp), splitFirst_append hke []]
    simp
  rw [parse_qs, parse_qs, parse_qsl_joinAmp _ hfL, parse_qsl_joinAmp _ hfR]
  rw [List.filterMap_append, List.filterMap_append]
  simp only [List.filterMap_cons, hfield]

/-- C10 witness: the middle field `f=` disappears from the parse. -/
theorem c10_witness :
    parse_qs (joinAmp [['a', '=', '1'], ['f', '='], ['b', '=', '2']]) =
      parse_qs (joinAmp [['a', '=', '1'], ['b', '=', '2']]) :=
  (c10_empty_value_dropped [['a', '=', '1']] [['b', '=', '2']] ['f']
    (by decide) (by decide) (by decide) (by decide)).1

/-! ## C1: the `t` parameter has no video-domain exception -/

/-- C1 counterexample: on the video-hosting host `www.youtube.com` the
parameter `t` is removed, not preserved. -/
theorem c1_cex :
    clean_url "https://www.youtube.com/watch?v=abc&t=42&utm_source=foo".toList =
      ("https://www.youtube.com/watch?v=abc".toList,
        ["t".toList, "utm_source".toList]) := by rfl

/-- C1 (amended): `t` is in the tracking set and there is no domain
exception: on every parsed http(s) URL, every query parameter whose
lower-cased name is tracked — `t` included — is reported removed and is
absent from the rebuilt URL's query. -/
theorem c1_tracked_always_removed (url : Str) (p : ParseResult)
    (hp : urlparseE url = .ok p)
    (hs : p.scheme = "http".toList ∨ p.scheme = "https".toList)
    (hnn : p.netloc ≠ [])
    (k : Str) (hk : k ∈ keysOf (parse_qs p.query))
    (ht : tracking_params.contains (pyLower k) = true) :
    "t".toList ∈ tracking_params ∧
    k ∈ (clean_url url).2 ∧
    ∀ q, urlparseE (clean_url url).1 = .ok q →
      ¬ k ∈ keysOf (parse_qs q.query) := by
  refine ⟨by decide, ?_, ?_⟩
  · rw [clean_url_eq hp hs]
    show k ∈ removedOf p.query
    rw [removedOf]
    simp only [keysOf, List.mem_map] at hk
    obtain ⟨e, he, hek⟩ := hk
    simp only [List.mem_map]
    refine ⟨e, ?_, hek⟩
    apply List.mem_filter.mpr
    refine ⟨he, ?_⟩
    show tracking_params.contains (pyLower e.1) = true
    rw [hek]
    exact ht
  · intro q hq
    rw [clean_url_reparse hp hs hnn] at hq
    simp only [Except.ok.injEq] at hq
    subst hq
    intro hmem
    have hpq : parse_qs (cleanedOf p).query = (parse_qs p.query).filter keepF :=
      parse_qs_urlencode_filter p.query keepF
    rw [hpq] at hmem
    simp only [keysOf, List.mem_map] at hmem
    obtain ⟨e, he, hek⟩ := hmem
    have hkeep : keepF e = true := List.of_mem_filter he
    rw [keepF, Bool.not_eq_true'] at hkeep
    rw [hek, ht] at hkeep
    exact absurd hkeep (by simp)

/-- C1 witness: `t` is removed on a YouTube URL. -/
theorem c1_witness :
    "t".toList ∈ (clean_url "https://www.youtube.com/watch?v=abc&t=42".toList).2 := by
  have h := c1_tracked_always_removed
    "https://www.youtube.com/watch?v=abc&t=42".toList
    ⟨"https".toList, "www.youtube.com".toList, "/watch".toList, [],
      "v=abc&t=42".toList, []⟩ (by rfl) (Or.inr rfl) (by decide)
    "t".toList (by decide) (by decide)
  exact h.2.1

/-! ## C2: what is preserved for non-tracking queries -/

/-- C2 counterexample: `foo` and `bar` are outside the tracking set, yet the
query string changes: the empty-valued occurrence `foo=` is dropped from
the rebuilt query (and not reported as removed). -/
theorem c2_cex :
    clean_url "https://x.com/p?foo=&bar=1".toList =
      ("https://x.com/p?bar=1".toList, ([] : List Str)) := by rfl

/-- C2 (amended): when every parsed query parameter is outside the tracking
set, `clean_url` removes nothing and preserves the scheme, netloc, path,
params, fragment and the parsed query dict; the query string itself is only
re-encoded (empty-valued occurrences are dropped at parse time, and repeated
keys are regrouped), not preserved byte for byte. -/
theorem c2_nontracking_preserved (url : Str) (p : ParseResult)
    (hp : urlparseE url = .ok p)
    (hs : p.scheme = "http".toList ∨ p.scheme = "https".toList)
    (hnn : p.netloc ≠ [])
    (hdisj : ∀ kv ∈ parse_qs p.query,
      tracking_params.contains (pyLower kv.1) = false) :
    (clean_url url).2 = [] ∧
    ∃ q, urlparseE (clean_url url).1 = .ok q ∧
      q.scheme = p.scheme ∧ q.netloc = p.netloc ∧ q.path = p.path ∧
      q.params = p.params ∧ q.fragment = p.fragment ∧
      parse_qs q.query = parse_qs p.query := by
  have hkeep : (parse_qs p.query).filter keepF = parse_qs p.query := by
    apply List.filter_eq_self.mpr
    intro kv hkv
    show (!tracking_params.contains (pyLower kv.1)) = true
    rw [hdisj kv hkv]
    rfl
  constructor
  · rw [clean_url_eq hp hs]
    show removedOf p.query = []
    rw [removedOf]
    have hnil : (parse_qs p.query).filter dropF = [] := by
      apply List.filter_eq_nil_iff.mpr
      intro kv hkv
      show ¬ tracking_params.contains (pyLower kv.1) = true
      rw [hdisj kv hkv]
      simp
    rw [hnil, List.map_nil]
  · refine ⟨cleanedOf p, clean_url_reparse hp hs hnn, rfl, rfl, rfl, rfl, rfl, ?_⟩
    have hpq : parse_qs (cleanedOf p).query = (parse_qs p.query).filter keepF :=
      parse_qs_urlencode_filter p.query keepF
    rw [hpq, hkeep]

/-- C2 witness: an untracked query passes through with nothing removed. -/
theorem c2_witness :
    (clean_url "https://x.com/p?q=1".toList).2 = [] := by
  have h := c2_nontracking_preserved "https://x.com/p?q=1".toList
    ⟨"https".toList, "x.com".toList, "/p".toList, [], "q=1".toList, []⟩
    (by rfl) (Or.inr rfl) (by decide) (by decide)
  exact h.1

/-! ## C7: what `replace('www.', '')` actually does to the host -/

/-- The spec's host normalization, modelled from the spec's words for
comparison: lower-case, then strip one leading `www.` prefix and nothing
else. -/
def specNormDomain (netloc : Str) : Str :=
  if "www.".toList.isPrefixOf (pyLower netloc) then (pyLower netloc).drop 4
  else pyLower netloc

theorem isSubstr_cons_false {n : Str} {c : Char} {t : Str}
    (h : isSubstr n (c :: t) = false) : isSubstr n t = false := by
  cases hs : isSubstr n t
  · rfl
  · exfalso
    rw [isSubstr] at hs
    obtain ⟨tl, htl, hpre⟩ := List.any_eq_true.mp hs
    have h1 : tl <:+ t := (List.mem_tails _ _).mp htl
    have h2 : tl ∈ (c :: t).tails :=
      (List.mem_tails _ _).mpr (h1.trans (List.suffix_cons c t))
    rw [isSubstr] at h
    have h3 := List.any_eq_false.mp h tl h2
    exact h3 hpre

theorem stripWWWAll_cons (c : Char) (rest : Str)
    (h : ¬ ("www.".toList.isPrefixOf (c :: rest) = true)) :
    stripWWWAll (c :: rest) = c :: stripWWWAll rest := by
  rw [stripWWWAll.eq_def]
  split
  · rename_i r heq
    exfalso
    apply h
    apply List.isPrefixOf_iff_prefix.mpr
    refine ⟨r, ?_⟩
    rw [heq]
    rfl
  · rename_i c2 r2 heq
    rw [List.cons.injEq] at heq
    rw [heq.1, heq.2]
  · rename_i heq
    exact absurd heq (by simp)

theorem stripWWWAll_no_www (s : Str)
    (h : isSubstr "www.".toList s = false) : stripWWWAll s = s := by
  induction s with
  | nil => rfl
  | cons c rest ih =>
    have hpre : ¬ ("www.".toList.isPrefixOf (c :: rest) = true) := by
      intro hp
      have hsub : isSubstr "www.".toList (c :: rest) = true := by
        rw [isSubstr]
        apply List.any_eq_true.mpr
        exact ⟨c :: rest, (List.mem_tails _ _).mpr List.suffix_rfl, hp⟩
      rw [hsub] at h
      exact absurd h (by simp)
    rw [stripWWWAll_cons c rest hpre, ih (isSubstr_cons_false h)]

/-- C7 counterexample: `replace('www.', '')` strips every occurrence, not
only a leading prefix: `twitter.www.com` normalizes to `twitter.com`
(the spec's strip-one-leading-prefix rule would leave it unchanged), so
`https://twitter.www.com/status/1` is rewritten to `fxtwitter.com`. -/
theorem c7_cex :
    normDomain "twitter.www.com".toList = "twitter.com".toList ∧
    specNormDomain "twitter.www.com".toList = "twitter.www.com".toList ∧
    (convert_twitter_to_fxtwitter
        "https://twitter.www.com/status/1".toList).2 = true := by
  refine ⟨by rfl, by rfl, by rfl⟩

/-- C7 (amended): both call sites normalize the host as
`netloc.lower().replace('www.', '')`, removing every occurrence of `www.`;
this agrees with lower-casing plus stripping one leading `www.` exactly when
the once-stripped host contains no further `www.`. -/
theorem c7_normalization (nl : Str)
    (h : isSubstr "www.".toList (specNormDomain nl) = false) :
    normDomain nl = specNormDomain nl := by
  rw [normDomain]
  rw [specNormDomain] at h ⊢
  by_cases hpre : ("www.".toList.isPrefixOf (pyLower nl)) = true
  · rw [if_pos hpre] at h ⊢
    obtain ⟨rest, hr⟩ := List.isPrefixOf_iff_prefix.mp hpre
    rw [← hr] at h ⊢
    have hdrop : (("www.".toList ++ rest : Str)).drop 4 = rest := rfl
    rw [hdrop] at h ⊢
    show stripWWWAll ('w' :: 'w' :: 'w' :: '.' :: rest) = rest
    rw [show stripWWWAll ('w' :: 'w' :: 'w' :: '.' :: rest)
        = stripWWWAll rest from rfl]
    exact stripWWWAll_no_www rest h
  · rw [if_neg hpre] at h ⊢
    exact stripWWWAll_no_www _ h

/-- C7 witness: a single leading `www.` is stripped as the spec says. -/
theorem c7_witness :
    normDomain "www.example.com".toList = "example.com".toList :=
  (c7_normalization "www.example.com".toList (by decide)).trans (by decide)

/-! ## C6: rewrite gating on convertible domains -/

/-- C6: on a parsed http(s) URL whose normalized host is exactly a
convertible Twitter/X host: without the `/status/` path marker the rewriter
returns its input unchanged with `wasRewritten = false`; with the marker it
reports `wasRewritten = true` and its output re-parses to the same scheme,
path, params, query and fragment with the host replaced by
`fxtwitter.com`. -/
theorem c6_rewrite_gating (url : Str) (p : ParseResult)
    (hp : urlparseE url = .ok p)
    (hs : p.scheme = "http".toList ∨ p.scheme = "https".toList)
    (hnn : p.netloc ≠ [])
    (hd : normDomain p.netloc = "twitter.com".toList ∨
      normDomain p.netloc = "x.com".toList ∨
      normDomain p.netloc = "mobile.twitter.com".toList) :
    (isSubstr "/status/".toList p.path = false →
      convert_twitter_to_fxtwitter url = (url, false)) ∧
    (isSubstr "/status/".toList p.path = true →
      (convert_twitter_to_fxtwitter url).2 = true ∧
      urlparseE (convert_twitter_to_fxtwitter url).1 =
        .ok ⟨p.scheme, "fxtwitter.com".toList, p.path, p.params, p.query,
          p.fragment⟩) := by
  constructor
  · intro hsub
    apply convert_eq_norewrite hp
    intro hcc
    obtain ⟨_, h2⟩ := hcc
    rw [hsub] at h2
    exact absurd h2 (by simp)
  · intro hsub
    constructor
    · rw [convert_eq_rewrite hp ⟨hd, hsub⟩]
    · exact convert_reparse hp hs hnn ⟨hd, hsub⟩

/-- C6 witness: no marker means no rewrite; with the marker the host is
replaced and the flag set. -/
theorem c6_witness :
    convert_twitter_to_fxtwitter "https://x.com/about".toList =
      ("https://x.com/about".toList, false) ∧
    (convert_twitter_to_fxtwitter "https://x.com/status/7".toList).2 = true := by
  constructor
  · exact (c6_rewrite_gating "https://x.com/about".toList
      ⟨"https".toList, "x.com".toList, "/about".toList, [], [], []⟩
      (by rfl) (Or.inr rfl) (by decide) (Or.inr (Or.inl (by rfl)))).1 (by rfl)
  · exact ((c6_rewrite_gating "https://x.com/status/7".toList
      ⟨"https".toList, "x.com".toList, "/status/7".toList, [], [], []⟩
      (by rfl) (Or.inr rfl) (by decide) (Or.inr (Or.inl (by rfl)))).2
      (by rfl)).1

/-! ## C5: exactly which strings `is_url` accepts -/

theorem mem_take_append (x : Char) (u w : Str) {k : Nat} (hk : u.length < k) :
    x ∈ (u ++ x :: w).take k := by
  induction u generalizing k with
  | nil =>
    match k, hk with
    | k + 1, _ =>
      rw [List.nil_append, List.take_succ_cons]
      exact List.mem_cons_self _ _
  | cons a u ih =>
    match k, hk with
    | k + 1, hk =>
      rw [List.cons_append, List.take_succ_cons]
      exact List.mem_cons_of_mem _ (ih (by simpa using hk))

/-- The regex tail after `https?://`, characterized: first character
alphanumeric, a host-character run containing a further alphanumeric
character that is not the last character of the text, and no newline. -/
theorem tailMatch_iff (t : Str) :
    tailMatch t = true ↔
      ∃ c0 u cj v, t = c0 :: u ++ cj :: v ∧ c0.isAlphanum = true ∧
        (∀ c ∈ u, hostChar c = true) ∧ cj.isAlphanum = true ∧ v ≠ [] ∧
        (∀ c ∈ t, ¬ c = '\n') := by
  constructor
  · intro h
    match t, h with
    | [], h => exact absurd h (by simp [tailMatch])
    | c0 :: rest, h =>
      rw [tailMatch] at h
      simp only [Bool.and_eq_true] at h
      obtain ⟨⟨h0, hnl⟩, hany⟩ := h
      obtain ⟨cj, hcjmem, hcja⟩ := List.any_eq_true.mp hany
      obtain ⟨s, t', hst⟩ := List.append_of_mem hcjmem
      have htw : rest.takeWhile hostChar =
          (s ++ cj :: t') ++
            (rest.takeWhile hostChar).drop (rest.length - 1) := by
        conv_lhs => rw [← List.take_append_drop (rest.length - 1)
          (rest.takeWhile hostChar)]
        rw [hst]
      have hrest : rest = s ++ cj :: (t' ++
          (rest.takeWhile hostChar).drop (rest.length - 1) ++
          rest.dropWhile hostChar) := by
        conv_lhs => rw [← List.takeWhile_append_dropWhile hostChar rest]
        conv_lhs => rw [htw]
        simp [List.append_assoc]
      have hsub : ∀ a ∈ s ++ cj :: t', a ∈ rest.takeWhile hostChar := by
        intro a ha
        rw [htw]
        exact List.mem_append_left _ ha
      have hshost : ∀ c ∈ s, hostChar c = true := by
        intro a ha
        exact (mem_of_mem_takeWhile (hsub a (List.mem_append_left _ ha))).1
      have hlb : s.length + 1 ≤ rest.length - 1 := by
        have hlen := congrArg List.length hst
        rw [List.length_take, List.length_append, List.length_cons] at hlen
        omega
      have hvlen := congrArg List.length hrest
      rw [List.length_append, List.length_cons] at hvlen
      refine ⟨c0, s, cj,
        t' ++ (rest.takeWhile hostChar).drop (rest.length - 1) ++
          rest.dropWhile hostChar, by rw [List.cons_append, ← hrest], h0, hshost,
        hcja, ?_, ?_⟩
      · intro hv
        rw [hv] at hvlen
        simp only [List.length_nil] at hvlen
        omega
      · intro c hc
        have := List.all_eq_true.mp hnl c hc
        simpa using this
  · rintro ⟨c0, u, cj, v, ht, h0, hu, hcj, hv, hnl⟩
    rw [ht, List.cons_append, tailMatch]
    simp only [Bool.and_eq_true]
    refine ⟨⟨h0, ?_⟩, ?_⟩
    · rw [List.all_eq_true]
      intro c hc
      have := hnl c (by rw [ht]; exact hc)
      simpa using this
    · apply List.any_eq_true.mpr
      refine ⟨cj, ?_, hcj⟩
      have hcjh : hostChar cj = true := by
        simp [hostChar, hcj]
      rw [(takeWhile_append_all hu (cj :: v)).1, List.takeWhile_cons_of_pos hcjh]
      apply mem_take_append
      rw [List.length_append, List.length_cons]
      have : 0 < v.length := List.length_pos.mpr hv
      omega

theorem is_url_length {x : Str} (h : is_url x = true) :
    x.length ≤ 2048 ∧ 10 ≤ x.length := by
  rw [is_url] at h
  split at h
  · exact absurd h (by simp)
  · rename_i hc
    simp only [Bool.or_eq_true, decide_eq_true_eq, not_or] at hc
    omega

theorem is_url_not_dangerous {x : Str} (h : is_url x = true) :
    dangerousScheme (pyStrip x) = false := by
  rw [is_url] at h
  split at h
  · exact absurd h (by simp)
  · change (if dangerousScheme (pyStrip x) = true then false
      else httpMatch (pyStrip x)) = true at h
    by_cases hd : dangerousScheme (pyStrip x) = true
    · rw [if_pos hd] at h
      exact absurd h (by simp)
    · exact Bool.not_eq_true _ |>.mp hd

theorem is_url_build {x : Str} (h1 : x.length ≤ 2048) (h2 : 10 ≤ x.length)
    (hd : dangerousScheme (pyStrip x) = false)
    (hm : httpMatch (pyStrip x) = true) : is_url x = true := by
  rw [is_url]
  rw [if_neg ?hc]
  case hc =>
    simp only [Bool.or_eq_true, decide_eq_true_eq, not_or]
    omega
  change (if dangerousScheme (pyStrip x) = true then false
    else httpMatch (pyStrip x)) = true
  rw [if_neg (by simp [hd])]
  exact hm

/-- C5 counterexample: backtracking lets the regex tail `.+` re-match host
characters, so the bare host `https://x.com` — nothing after the host — is
accepted. -/
theorem c5_cex :
    is_url "https://x.com".toList = true ∧
    "x.com".toList.all hostChar = true := by
  refine ⟨by rfl, by rfl⟩

/-- C5 (amended): `is_url` accepts exactly: raw length 10..2048, no
dangerous scheme after stripping, and the stripped text split as a
case-insensitive `http://` or `https://` prefix, an alphanumeric character,
a run of host characters, an alphanumeric character, and at least one
further character, with no newline after the scheme.  The trailing `.+` of
the regex may itself consume host characters, so a bare host of two or more
characters is accepted — the claim's "at least one further character after
the host" and "bare-host-only strings are rejected" do not hold. -/
theorem c5_is_url_iff (text : Str) :
    is_url text = true ↔
      (text.length ≤ 2048 ∧ 10 ≤ text.length ∧
        dangerousScheme (pyStrip text) = false ∧
        ∃ sch c0 u cj v,
          pyStrip text = sch ++ c0 :: u ++ cj :: v ∧
          (pyLower sch = "http://".toList ∨ pyLower sch = "https://".toList) ∧
          c0.isAlphanum = true ∧ (∀ c ∈ u, hostChar c = true) ∧
          cj.isAlphanum = true ∧ v ≠ [] ∧
          (∀ c ∈ c0 :: u ++ cj :: v, ¬ c = '\n')) := by
  constructor
  · intro h
    obtain ⟨hl1, hl2⟩ := is_url_length h
    refine ⟨hl1, hl2, is_url_not_dangerous h, ?_⟩
    have hm := is_url_httpMatch h
    rw [httpMatch] at hm
    by_cases h8 : ("https://".toList.isPrefixOf (pyLower (pyStrip text))) = true
    · rw [if_pos h8] at hm
      obtain ⟨sch, r, hsr, hsm, _⟩ := prefix_map_exists
        (List.isPrefixOf_iff_prefix.mp h8)
      have hs8 : sch.length = 8 := by
        have := congrArg List.length hsm
        rw [List.length_map] at this
        exact this
      have hdrop : (pyStrip text).drop 8 = r := by
        rw [hsr]
        exact List.drop_left' hs8
      rw [hdrop] at hm
      obtain ⟨c0, u, cj, v, hteq, h0, hu, hcj, hv, hnl⟩ :=
        (tailMatch_iff r).mp hm
      exact ⟨sch, c0, u, cj, v, by rw [hsr, hteq]; simp, Or.inr hsm, h0, hu,
        hcj, hv, by rw [← hteq]; exact hnl⟩
    · rw [if_neg h8] at hm
      by_cases h7 : ("http://".toList.isPrefixOf (pyLower (pyStrip text))) = true
      · rw [if_pos h7] at hm
        obtain ⟨sch, r, hsr, hsm, _⟩ := prefix_map_exists
          (List.isPrefixOf_iff_prefix.mp h7)
        have hs7 : sch.length = 7 := by
          have := congrArg List.length hsm
          rw [List.length_map] at this
          exact this
        have hdrop : (pyStrip text).drop 7 = r := by
          rw [hsr]
          exact List.drop_left' hs7
        rw [hdrop] at hm
        obtain ⟨c0, u, cj, v, hteq, h0, hu, hcj, hv, hnl⟩ :=
          (tailMatch_iff r).mp hm
        exact ⟨sch, c0, u, cj, v, by rw [hsr, hteq]; simp, Or.inl hsm, h0, hu,
          hcj, hv, by rw [← hteq]; exact hnl⟩
      · rw [if_neg h7] at hm
        exact absurd hm (by simp)
  · rintro ⟨hl1, hl2, hd, sch, c0, u, cj, v, hdec, hlow, h0, hu, hcj, hv, hnl⟩
    apply is_url_build hl1 hl2 hd
    rw [httpMatch]
    have hlower : pyLower (pyStrip text) =
        pyLower sch ++ pyLower (c0 :: u ++ cj :: v) := by
      rw [hdec]
      simp [pyLower]
    rcases hlow with hlow | hlow
    · have h8 : ¬ ("https://".toList.isPrefixOf (pyLower (pyStrip text))
          = true) := by
        intro h8
        obtain ⟨r8, hr8⟩ := List.isPrefixOf_iff_prefix.mp h8
        have e1 : (pyLower (pyStrip text)).take 5 = "https".toList := by
          rw [← hr8, List.take_append_of_le_length (by decide)]
          decide
        have e2 : (pyLower (pyStrip text)).take 5 = "http:".toList := by
          rw [hlower, hlow, List.take_append_of_le_length (by decide)]
          decide
        rw [e1] at e2
        exact absurd e2 (by decide)
      have h7 : "http://".toList.isPrefixOf (pyLower (pyStrip text)) = true :=
        List.isPrefixOf_iff_prefix.mpr ⟨pyLower (c0 :: u ++ cj :: v),
          by rw [hlower, hlow]⟩
      rw [if_neg h8, if_pos h7]
      have hs7 : sch.length = 7 := by
        have := congrArg List.length hlow
        rw [pyLower, List.length_map] at this
        exact this
      have hdrop : (pyStrip text).drop 7 = c0 :: u ++ cj :: v := by
        rw [hdec, List.append_assoc]
        rw [List.drop_left' hs7]
      rw [hdrop]
      exact (tailMatch_iff _).mpr ⟨c0, u, cj, v, rfl, h0, hu, hcj, hv, hnl⟩
    · have h8 : "https://".toList.isPrefixOf (pyLower (pyStrip text)) = true :=
        List.isPrefixOf_iff_prefix.mpr ⟨pyLower (c0 :: u ++ cj :: v),
          by rw [hlower, hlow]⟩
      rw [if_pos h8]
      have hs8 : sch.length = 8 := by
        have := congrArg List.length hlow
        rw [pyLower, List.length_map] at this
        exact this
      have hdrop : (pyStrip text).drop 8 = c0 :: u ++ cj :: v := by
        rw [hdec, List.append_assoc]
        rw [List.drop_left' hs8]
      rw [hdrop]
      exact (tailMatch_iff _).mpr ⟨c0, u, cj, v, rfl, h0, hu, hcj, hv, hnl⟩

end URLClean